import Mathlib

/-!
Verification of the CanaryFS core (src/canaryfs.py): an in-memory,
capacity-bounded filesystem tree with an interactive access-control rule
engine.  The Python store is a dict from absolute path to mutable `Node`
objects that are shared between the path map (`self.files`) and each
directory's `children` dict.  We embed this with an explicit heap
(`List Node` indexed by allocation order, ids are never reused) so that
object aliasing and in-place mutation are modelled faithfully; `files` and
each node's `children` are association lists with dict semantics
(replace-on-insert, first-occurrence lookup).  Paths are modelled as lists
of segments; the caller contract (spec section 4.1) guarantees normalized
absolute `/`-separated paths, which embed injectively as lists of nonempty
slash-free segments.
-/

set_option autoImplicit false

namespace CanarySpec

/-! ### Association-list maps with Python-dict semantics -/

section AssocMap

variable {κ : Type} {ν : Type} [DecidableEq κ]

/-- Lookup of the first binding of a key, i.e. Python `d.get(k)`. -/
def alook : List (κ × ν) → κ → Option ν
  | [], _ => none
  | (a, b) :: t, k => if a = k then some b else alook t k

/-- Python `d[k] = v`: replace the binding in place, or append a new one. -/
def ains : List (κ × ν) → κ → ν → List (κ × ν)
  | [], k, v => [(k, v)]
  | (a, b) :: t, k, v => if a = k then (k, v) :: t else (a, b) :: ains t k v

/-- Python `del d[k]` on a present key: remove the first binding. -/
def adel : List (κ × ν) → κ → List (κ × ν)
  | [], _ => []
  | (a, b) :: t, k => if a = k then t else (a, b) :: adel t k

/-- The keys of a map are pairwise distinct (true of every Python dict). -/
def keysNodup (l : List (κ × ν)) : Prop := (l.map Prod.fst).Nodup

instance (l : List (κ × ν)) : Decidable (keysNodup l) := by
  unfold keysNodup
  infer_instance

@[simp] theorem alook_nil (k : κ) : alook ([] : List (κ × ν)) k = none := rfl

theorem alook_ains_self (l : List (κ × ν)) (k : κ) (v : ν) :
    alook (ains l k v) k = some v := by
  induction l with
  | nil => simp [ains, alook]
  | cons hd t ih =>
    obtain ⟨a, b⟩ := hd
    by_cases h : a = k <;> simp [ains, alook, h, ih]

theorem alook_ains_ne (l : List (κ × ν)) (k k' : κ) (v : ν) (h : k ≠ k') :
    alook (ains l k v) k' = alook l k' := by
  induction l with
  | nil => simp [ains, alook, h]
  | cons hd t ih =>
    obtain ⟨a, b⟩ := hd
    by_cases hak : a = k
    · subst hak
      simp [ains, alook, h, Ne.symm h]
    · simp only [ains, if_neg hak, alook]
      by_cases hak' : a = k' <;> simp [hak', ih]

theorem alook_adel_ne (l : List (κ × ν)) (k k' : κ) (h : k ≠ k') :
    alook (adel l k) k' = alook l k' := by
  induction l with
  | nil => simp [adel]
  | cons hd t ih =>
    obtain ⟨a, b⟩ := hd
    by_cases hak : a = k
    · subst hak
      simp [adel, alook, h]
    · simp only [adel, if_neg hak, alook]
      by_cases hak' : a = k' <;> simp [hak', ih]

theorem alook_eq_none_iff (l : List (κ × ν)) (k : κ) :
    alook l k = none ↔ k ∉ l.map Prod.fst := by
  induction l with
  | nil => simp
  | cons hd t ih =>
    obtain ⟨a, b⟩ := hd
    by_cases hak : a = k
    · subst hak
      simp [alook]
    · simp only [alook, if_neg hak, List.map_cons, List.mem_cons, ih]
      constructor
      · intro hn
        rintro (h1 | h2)
        · exact hak h1.symm
        · exact hn h2
      · intro hn h2
        exact hn (Or.inr h2)

theorem map_fst_adel (l : List (κ × ν)) (k : κ) :
    (adel l k).map Prod.fst = (l.map Prod.fst).erase k := by
  induction l with
  | nil => simp [adel]
  | cons hd t ih =>
    obtain ⟨a, b⟩ := hd
    by_cases hak : a = k
    · subst hak
      simp [adel, List.erase_cons_head]
    · simp [adel, hak, List.erase_cons_tail, ih, hak]

theorem keysNodup_adel (l : List (κ × ν)) (k : κ) (h : keysNodup l) :
    keysNodup (adel l k) := by
  unfold keysNodup at h ⊢
  rw [map_fst_adel]
  exact h.erase k

theorem alook_adel_self (l : List (κ × ν)) (k : κ) (h : keysNodup l) :
    alook (adel l k) k = none := by
  rw [alook_eq_none_iff, map_fst_adel]
  exact List.Nodup.not_mem_erase h

theorem map_fst_ains_present (l : List (κ × ν)) (k : κ) (v : ν)
    (h : alook l k ≠ none) : (ains l k v).map Prod.fst = l.map Prod.fst := by
  induction l with
  | nil => simp [alook] at h
  | cons hd t ih =>
    obtain ⟨a, b⟩ := hd
    by_cases hak : a = k
    · subst hak
      simp [ains]
    · simp only [alook, if_neg hak] at h
      simp [ains, hak, ih h]

theorem map_fst_ains_absent (l : List (κ × ν)) (k : κ) (v : ν)
    (h : alook l k = none) : (ains l k v).map Prod.fst = l.map Prod.fst ++ [k] := by
  induction l with
  | nil => simp [ains]
  | cons hd t ih =>
    obtain ⟨a, b⟩ := hd
    by_cases hak : a = k
    · simp [alook, hak] at h
    · simp only [alook, if_neg hak] at h
      simp [ains, hak, ih h]

theorem keysNodup_ains (l : List (κ × ν)) (k : κ) (v : ν) (h : keysNodup l) :
    keysNodup (ains l k v) := by
  unfold keysNodup at h ⊢
  rcases hk : alook l k with _ | w
  · rw [map_fst_ains_absent l k v hk]
    have hnm : k ∉ l.map Prod.fst := (alook_eq_none_iff l k).mp hk
    simp [List.nodup_append, h, hnm]
  · rw [map_fst_ains_present l k v (by simp [hk])]
    exact h

theorem keysNodup_cons (a : κ) (b : ν) (t : List (κ × ν))
    (h : keysNodup ((a, b) :: t)) : a ∉ t.map Prod.fst ∧ keysNodup t := by
  unfold keysNodup at h ⊢
  rw [List.map_cons] at h
  exact List.nodup_cons.mp h

theorem alook_eq_some_of_mem (l : List (κ × ν)) (k : κ) (v : ν)
    (h : keysNodup l) (hm : (k, v) ∈ l) : alook l k = some v := by
  induction l with
  | nil => simp at hm
  | cons hd t ih =>
    obtain ⟨a, b⟩ := hd
    have hnd := keysNodup_cons a b t h
    rcases List.mem_cons.mp hm with h1 | h1
    · injection h1 with h1a h1b
      subst h1a
      subst h1b
      simp [alook]
    · have hak : ¬a = k := by
        intro hh
        subst hh
        exact hnd.1 (List.mem_map.mpr ⟨(a, v), h1, rfl⟩)
      simp only [alook, if_neg hak]
      exact ih hnd.2 h1

theorem mem_of_alook_eq_some (l : List (κ × ν)) (k : κ) (v : ν)
    (h : alook l k = some v) : (k, v) ∈ l := by
  induction l with
  | nil => simp [alook] at h
  | cons hd t ih =>
    obtain ⟨a, b⟩ := hd
    by_cases hak : a = k
    · subst hak
      simp [alook] at h
      subst h
      exact List.mem_cons_self _ _
    · simp only [alook, if_neg hak] at h
      exact List.mem_cons.mpr (Or.inr (ih h))

theorem alook_singleton (k k' : κ) (v : ν) (w : ν) :
    alook [(k, v)] k' = some w ↔ k = k' ∧ v = w := by
  by_cases h : k = k' <;> simp [alook, h]

theorem adel_of_alook_none (l : List (κ × ν)) (k : κ) (h : alook l k = none) :
    adel l k = l := by
  induction l with
  | nil => simp [adel]
  | cons hd t ih =>
    obtain ⟨a, b⟩ := hd
    by_cases hak : a = k
    · simp [alook, hak] at h
    · simp only [alook, if_neg hak] at h
      simp [adel, hak, ih h]

end AssocMap

/-! ### Data model: Rule, Node, CanaryFS (src/canaryfs.py lines 48-98) -/

/-- A path is the list of segments of a normalized absolute path:
`/` is `[]`, `/a/b` is `["a", "b"]`. -/
abbrev Path : Type := List String

/-- A normalized absolute path has nonempty, slash-free segments (spec 4.1:
"path arguments are always absolute, `/`-separated, normalized by the
caller"); this makes the segment-list encoding injective. -/
def validPath (p : Path) : Prop := ∀ s ∈ p, s ≠ "" ∧ '/' ∉ s.data

instance (p : Path) : Decidable (validPath p) := by
  unfold validPath
  infer_instance

/-- `Rule` (canaryfs.py line 48): an allow rule for `(op, path)`, with either
an absolute expiry timestamp or a remaining-use counter. -/
structure Rule where
  expires_at : Option Nat
  remaining : Option Int
deriving DecidableEq, Repr

/-- `Rule.allowed` (line 54): time rules are valid while `now ≤ expires_at`;
count rules while `remaining > 0`; a rule with neither is an implicit
single-shot allowance. -/
def Rule.allowed (r : Rule) (now : Nat) : Bool :=
  match r.expires_at with
  | some e => now ≤ e
  | none =>
    match r.remaining with
    | some k => 0 < k
    | none => true

/-- `Rule.consume` (line 62): decrement a positive remaining-use counter. -/
def Rule.consume (r : Rule) : Rule :=
  match r.remaining with
  | some k => if 0 < k then { r with remaining := some (k - 1) } else r
  | none => r

/-- `Node` (canaryfs.py line 67): one filesystem entry.  `children` maps a
child name to the child's heap id; `data` is the byte buffer. -/
structure Node where
  is_dir : Bool
  mode : Nat
  nlink : Int
  size : Nat
  atime : Nat
  mtime : Nat
  ctime : Nat
  uid : Int
  gid : Int
  children : List (String × Nat)
  data : List Nat
deriving DecidableEq, Repr

/-- `Node.__init__` (line 68): fresh node with `nlink = 2` for a directory
and `1` for a file, empty children and data, all timestamps `now`. -/
def Node.mk0 (isd : Bool) (mode : Nat) (now : Nat) : Node :=
  { is_dir := isd, mode := mode, nlink := if isd then 2 else 1, size := 0,
    atime := now, mtime := now, ctime := now, uid := 0, gid := 0,
    children := [], data := [] }

/-- Out-of-range heap reads return this dummy file node (they never happen in
reachable states; a file has no children). -/
def dNode : Node := Node.mk0 false 0 0

/-- Read the node object with heap id `i` (Python: dereference the object). -/
def getN (h : List Node) (i : Nat) : Node := h.getD i dNode

/-- `CanaryFS.__init__` (line 84): the whole process-wide state.  `files` maps
a path to a heap id; `heap` holds the node objects, indexed by id. -/
structure CanaryFS where
  capacity : Nat
  ask : Bool
  ask_scope : String
  global_allow_all : Bool
  used : Int
  fd : Nat
  files : List (Path × Nat)
  allow_rules : List ((String × Path) × Rule)
  heap : List Node
deriving DecidableEq, Repr

/-- `S_IFDIR | 0o755` for the root (line 97): `0o40755`. -/
def CanaryFS.init (capacity : Nat) (ask : Bool) (ask_scope : String) : CanaryFS :=
  { capacity := capacity, ask := ask, ask_scope := ask_scope,
    global_allow_all := false, used := 0, fd := 0,
    files := [([], 0)], allow_rules := [],
    heap := [Node.mk0 true (16384 + 493) 0] }

/-- The POSIX-style error taxonomy (spec section 7), plus `keyErr` for an
uncaught Python `KeyError` escaping an operation (`del d[k]` on an absent
key), which is not a `FuseOSError`. -/
inductive Errno where
  | enoent | enotdir | eisdir | eexist | enotempty | enospc | eacces | keyErr
deriving DecidableEq, Repr

instance {ε α : Type} [DecidableEq ε] [DecidableEq α] :
    DecidableEq (Except ε α) := fun x y =>
  match x, y with
  | .ok a, .ok b =>
    if h : a = b then isTrue (congrArg Except.ok h)
    else isFalse (fun hh => h (Except.ok.inj hh))
  | .error a, .error b =>
    if h : a = b then isTrue (congrArg Except.error h)
    else isFalse (fun hh => h (Except.error.inj hh))
  | .ok _, .error _ => isFalse (fun hh => Except.noConfusion hh)
  | .error _, .ok _ => isFalse (fun hh => Except.noConfusion hh)

/-! ### Heap access lemmas -/

theorem getN_set_self (h : List Node) (i : Nat) (x : Node) (hi : i < h.length) :
    getN (h.set i x) i = x := by
  unfold getN
  rw [List.getD_eq_getElem?_getD, List.getElem?_set_self (by simpa using hi)]
  rfl

theorem getN_set_ne (h : List Node) (i j : Nat) (x : Node) (hij : i ≠ j) :
    getN (h.set i x) j = getN h j := by
  unfold getN
  rw [List.getD_eq_getElem?_getD, List.getElem?_set_ne hij, ← List.getD_eq_getElem?_getD]

theorem getN_append_lt (h : List Node) (l : List Node) (j : Nat) (hj : j < h.length) :
    getN (h ++ l) j = getN h j := by
  unfold getN
  rw [List.getD_eq_getElem?_getD, List.getElem?_append_left hj, ← List.getD_eq_getElem?_getD]

theorem getN_append_len (h : List Node) (x : Node) :
    getN (h ++ [x]) h.length = x := by
  unfold getN
  rw [List.getD_eq_getElem?_getD]
  rw [List.getElem?_append_right (Nat.le_refl _)]
  simp

theorem getN_oob (h : List Node) (j : Nat) (hj : h.length ≤ j) : getN h j = dNode := by
  unfold getN
  rw [List.getD_eq_getElem?_getD, List.getElem?_eq_none (by simpa using hj)]
  rfl

/-! ### Path splitting -/

/-- `os.path.split` on a normalized absolute path (canaryfs.py `_split`,
line 101): parent directory and final name; the root splits into the root
itself and the empty name. -/
def splitPath : Path → Path × String
  | [] => ([], "")
  | [a] => ([], a)
  | a :: rest => ((a :: (splitPath rest).1 : Path), (splitPath rest).2)

theorem splitPath_append_singleton (q : Path) (n : String) :
    splitPath (q ++ [n]) = (q, n) := by
  induction q with
  | nil => rfl
  | cons a rest ih =>
    cases hrest : rest ++ [n] with
    | nil => simp at hrest
    | cons b t =>
      simp only [List.cons_append, splitPath, hrest]
      rw [← hrest, ih]

/-! ### Node store helpers (canaryfs.py lines 101-129) -/

/-- `_get` (line 107): path lookup in the flat path map. -/
def fsGet (fs : CanaryFS) (p : Path) : Option Nat := alook fs.files p

/-- `_ensure_parent` (line 113): resolve the parent directory of `p` and the
final name; `ENOENT` if the parent is missing, `ENOTDIR` if it is a file. -/
def ensureParent (fs : CanaryFS) (p : Path) : Except Errno (Nat × String) :=
  match alook fs.files (splitPath p).1 with
  | none => .error .enoent
  | some pid =>
    if (getN fs.heap pid).is_dir then .ok (pid, (splitPath p).2)
    else .error .enotdir

/-- `_ensure_space_delta` (line 120) raises `ENOSPC` exactly when this holds:
the delta is positive and would push `used` above `capacity`. -/
def spaceShort (fs : CanaryFS) (delta : Int) : Prop :=
  0 < delta ∧ (fs.capacity : Int) < fs.used + delta

instance (fs : CanaryFS) (delta : Int) : Decidable (spaceShort fs delta) := by
  unfold spaceShort
  infer_instance

/-- Python `bytearray` slice assignment `xs[i:j] = ys` (both bounds clamped
to the buffer length, the addressed slice replaced by `ys`). -/
def sliceAssign (xs : List Nat) (i j : Nat) (ys : List Nat) : List Nat :=
  xs.take (min i xs.length) ++ ys ++ xs.drop (min (max j (min i xs.length)) xs.length)

/-! ### Node store operations (canaryfs.py lines 205-350)

Each operation takes the pre-state plus the Python-implicit inputs (the
current clock tick for `now_ts()`) and returns the post-state together with
the result.  On a `FuseOSError` the state is the unmodified pre-state — the
code raises before mutating — except for the `KeyError` exits inside
`unlink`/`rmdir`/`rename` (`del` on an absent dict key), whose partial
mutations the returned state retains, exactly as the Python object would. -/

/-- `mkdir` (line 205): new directory node, parent gains a child and a link. -/
def CanaryFS.mkdir (fs : CanaryFS) (p : Path) (mode now : Nat) :
    CanaryFS × Except Errno Unit :=
  match ensureParent fs p with
  | .error e => (fs, .error e)
  | .ok (pid, name) =>
    let pnode := getN fs.heap pid
    if (alook pnode.children name).isSome then (fs, .error .eexist)
    else
      let node := Node.mk0 true (16384 + mode % 512) now
      let nid := fs.heap.length
      let pnode2 := { pnode with
        children := ains pnode.children name nid
        nlink := pnode.nlink + 1
        mtime := now
        ctime := now }
      ({ fs with
        heap := fs.heap.set pid pnode2 ++ [node]
        files := ains fs.files p nid }, .ok ())

/-- `create` (line 268): new empty file node; returns a fresh fd. -/
def CanaryFS.create (fs : CanaryFS) (p : Path) (mode now : Nat) :
    CanaryFS × Except Errno Nat :=
  match ensureParent fs p with
  | .error e => (fs, .error e)
  | .ok (pid, name) =>
    let pnode := getN fs.heap pid
    if (alook pnode.children name).isSome then (fs, .error .eexist)
    else
      let node := Node.mk0 false (32768 + mode % 512) now
      let nid := fs.heap.length
      let pnode2 := { pnode with
        children := ains pnode.children name nid
        mtime := now
        ctime := now }
      ({ fs with
        heap := fs.heap.set pid pnode2 ++ [node]
        files := ains fs.files p nid
        fd := fs.fd + 1 }, .ok (fs.fd + 1))

/-- `rmdir` (line 216): remove an empty directory; the parent loses a link.
`del parent.children[name]` on an absent key is an uncaught `KeyError`
(possible in stale states after a directory rename) and mutates nothing. -/
def CanaryFS.rmdir (fs : CanaryFS) (p : Path) (now : Nat) :
    CanaryFS × Except Errno Unit :=
  match alook fs.files p with
  | none => (fs, .error .enoent)
  | some nid =>
    let node := getN fs.heap nid
    if ¬node.is_dir then (fs, .error .enotdir)
    else if node.children ≠ [] then (fs, .error .enotempty)
    else
      match ensureParent fs p with
      | .error e => (fs, .error e)
      | .ok (pid, name) =>
        let pnode := getN fs.heap pid
        if (alook pnode.children name).isNone then (fs, .error .keyErr)
        else
          let pnode2 := { pnode with
            children := adel pnode.children name
            nlink := pnode.nlink - 1
            mtime := now
            ctime := now }
          ({ fs with
            heap := fs.heap.set pid pnode2
            files := adel fs.files p }, .ok ())

/-- `unlink` (line 229): remove a file; `used` drops by its size. -/
def CanaryFS.unlink (fs : CanaryFS) (p : Path) (now : Nat) :
    CanaryFS × Except Errno Unit :=
  match alook fs.files p with
  | none => (fs, .error .enoent)
  | some nid =>
    let node := getN fs.heap nid
    if node.is_dir then (fs, .error .eisdir)
    else
      match ensureParent fs p with
      | .error e => (fs, .error e)
      | .ok (pid, name) =>
        let pnode := getN fs.heap pid
        if (alook pnode.children name).isNone then (fs, .error .keyErr)
        else
          let pnode2 := { pnode with
            children := adel pnode.children name
            mtime := now
            ctime := now }
          ({ fs with
            heap := fs.heap.set pid pnode2
            files := adel fs.files p
            used := fs.used - node.size }, .ok ())

/-- Steps of `rename` after the existing-target handling (lines 254-260):
unhook from the old parent, hook into the new parent, re-key the path map,
stamp both parents.  The `KeyError` exits keep all mutations made so far. -/
def renameTail (fs : CanaryFS) (old new : Path) (now : Nat)
    (nid opid : Nat) (oname : String) (npid : Nat) (nname : String) :
    CanaryFS × Except Errno Unit :=
  let op1 := getN fs.heap opid
  if (alook op1.children oname).isNone then (fs, .error .keyErr)
  else
    let heap2 := fs.heap.set opid { op1 with children := adel op1.children oname }
    let np2 := getN heap2 npid
    let heap3 := heap2.set npid { np2 with children := ains np2.children nname nid }
    if (alook fs.files old).isNone then ({ fs with heap := heap3 }, .error .keyErr)
    else
      let files2 := ains (adel fs.files old) new nid
      let op4 := getN heap3 opid
      let heap4 := heap3.set opid { op4 with mtime := now, ctime := now }
      let np5 := getN heap4 npid
      let heap5 := heap4.set npid { np5 with mtime := now, ctime := now }
      ({ fs with heap := heap5, files := files2 }, .ok ())

/-- `rename` (line 240): move `old` to `new`; an existing file target is
unlinked first (its size released from `used`), a directory target raises
`EISDIR`. -/
def CanaryFS.rename (fs : CanaryFS) (old new : Path) (now : Nat) :
    CanaryFS × Except Errno Unit :=
  match alook fs.files old with
  | none => (fs, .error .enoent)
  | some nid =>
    match ensureParent fs old with
    | .error e => (fs, .error e)
    | .ok (opid, oname) =>
      match ensureParent fs new with
      | .error e => (fs, .error e)
      | .ok (npid, nname) =>
        match alook (getN fs.heap npid).children nname with
        | some tid =>
          let target := getN fs.heap tid
          if target.is_dir then (fs, .error .eisdir)
          else
            let np := getN fs.heap npid
            let np2 := { np with children := adel np.children nname }
            let fsA := { fs with heap := fs.heap.set npid np2 }
            if (alook fs.files new).isNone then (fsA, .error .keyErr)
            else
              let fsA2 := { fsA with
                files := adel fsA.files new
                used := fsA.used - target.size }
              renameTail fsA2 old new now nid opid oname npid nname
        | none => renameTail fs old new now nid opid oname npid nname

/-- `read` (line 280): the slice `data[offset : offset + size]`; only the
access time is touched. -/
def CanaryFS.read (fs : CanaryFS) (p : Path) (size offset now : Nat) :
    CanaryFS × Except Errno (List Nat) :=
  match alook fs.files p with
  | none => (fs, .error .enoent)
  | some nid =>
    let node := getN fs.heap nid
    if node.is_dir then (fs, .error .eisdir)
    else
      ({ fs with heap := fs.heap.set nid { node with atime := now } },
       .ok ((node.data.drop offset).take size))

/-- `write` (line 289): zero-extend to `max(size, offset+len(data))` if
needed, splice the data in, account the size increase against capacity. -/
def CanaryFS.write (fs : CanaryFS) (p : Path) (data : List Nat) (offset now : Nat) :
    CanaryFS × Except Errno Nat :=
  match alook fs.files p with
  | none => (fs, .error .enoent)
  | some nid =>
    let node := getN fs.heap nid
    if node.is_dir then (fs, .error .eisdir)
    else
      let endpos := offset + data.length
      let new_size := max node.size endpos
      let delta : Int := (new_size : Int) - (node.size : Int)
      if spaceShort fs delta then (fs, .error .enospc)
      else
        let data1 := if node.data.length < new_size
          then node.data ++ List.replicate (new_size - node.data.length) 0
          else node.data
        let node2 := { node with
          data := sliceAssign data1 offset endpos data
          size := new_size
          mtime := now
          atime := now }
        ({ fs with heap := fs.heap.set nid node2, used := fs.used + delta },
         .ok data.length)

/-- `truncate` (line 311): shrink frees bytes, growth zero-fills under the
same capacity check as `write`; only the modify time advances. -/
def CanaryFS.truncate (fs : CanaryFS) (p : Path) (length now : Nat) :
    CanaryFS × Except Errno Unit :=
  match alook fs.files p with
  | none => (fs, .error .enoent)
  | some nid =>
    let node := getN fs.heap nid
    if node.is_dir then (fs, .error .eisdir)
    else if length < node.size then
      let delta := node.size - length
      let node2 := { node with
        data := node.data.take length
        size := length
        mtime := now }
      ({ fs with heap := fs.heap.set nid node2, used := fs.used - delta }, .ok ())
    else if node.size < length then
      let delta := length - node.size
      if spaceShort fs delta then (fs, .error .enospc)
      else
        let node2 := { node with
          data := node.data ++ List.replicate delta 0
          size := length
          mtime := now }
        ({ fs with heap := fs.heap.set nid node2, used := fs.used + delta }, .ok ())
    else
      ({ fs with heap := fs.heap.set nid { node with mtime := now } }, .ok ())

/-- `utimens` (line 330): set access/modify times from the argument, or to
the current time when absent.  The change time is not touched. -/
def CanaryFS.utimens (fs : CanaryFS) (p : Path) (times : Option (Nat × Nat))
    (now : Nat) : CanaryFS × Except Errno Unit :=
  match alook fs.files p with
  | none => (fs, .error .enoent)
  | some nid =>
    let node := getN fs.heap nid
    let t := times.getD (now, now)
    ({ fs with heap := fs.heap.set nid { node with atime := t.1, mtime := t.2 } },
     .ok ())

/-- `chmod` (line 337): replace the permission bits, stamp the change time. -/
def CanaryFS.chmod (fs : CanaryFS) (p : Path) (mode now : Nat) :
    CanaryFS × Except Errno Nat :=
  match alook fs.files p with
  | none => (fs, .error .enoent)
  | some nid =>
    let node := getN fs.heap nid
    let node2 := { node with
      mode := node.mode / 512 * 512 + mode % 512
      ctime := now }
    ({ fs with heap := fs.heap.set nid node2 }, .ok 0)

/-- `chown` (line 344): set the owner ids, stamp the change time. -/
def CanaryFS.chown (fs : CanaryFS) (p : Path) (uid gid : Int) (now : Nat) :
    CanaryFS × Except Errno Nat :=
  match alook fs.files p with
  | none => (fs, .error .enoent)
  | some nid =>
    let node := getN fs.heap nid
    let node2 := { node with uid := uid, gid := gid, ctime := now }
    ({ fs with heap := fs.heap.set nid node2 }, .ok 0)

/-! ### Rule engine (canaryfs.py lines 126-173)

Prompt responses are modelled as lists of characters; the ASCII string
operations used by the code (`strip`, `lower`, `isdigit`, `endswith`,
`int`) are embedded below.  `input()` reading from an exhausted stdin
raises `EOFError`, which the code maps to the answer `n`. -/

/-- One console response, as its list of characters. -/
abbrev Resp : Type := List Char

/-- ASCII whitespace for `str.strip`. -/
def pySpace (c : Char) : Bool :=
  c.toNat = 32 ∨ c.toNat = 9 ∨ c.toNat = 10 ∨ c.toNat = 13 ∨
    c.toNat = 11 ∨ c.toNat = 12

/-- `str.strip()`: drop leading and trailing whitespace. -/
def pyStrip (cs : Resp) : Resp :=
  ((cs.dropWhile pySpace).reverse.dropWhile pySpace).reverse

/-- `str.lower()` on one ASCII character. -/
def pyLower (c : Char) : Char :=
  if 65 ≤ c.toNat ∧ c.toNat ≤ 90 then Char.ofNat (c.toNat + 32) else c

/-- One decimal digit, `'0'` to `'9'`. -/
def pyDigit (c : Char) : Bool := 48 ≤ c.toNat ∧ c.toNat ≤ 57

/-- `str.isdigit()` for ASCII input: nonempty and all digits. -/
def pyIsDigits (cs : Resp) : Bool := ¬cs.isEmpty ∧ cs.all pyDigit

/-- `int(s)` on a digit string. -/
def digitsToNat (cs : Resp) : Nat :=
  cs.foldl (fun a c => a * 10 + (c.toNat - 48)) 0

/-- `_rule_key` (line 126): scope `path` keys rules as `('*', path)`, any
other scope as `(op, path)`. -/
def ruleKey (fs : CanaryFS) (op : String) (p : Path) : String × Path :=
  if fs.ask_scope = "path" then ("*", p) else (op, p)

/-- The prompt loop (lines 150-173).  Responses are consumed until one is
well-formed; an exhausted list behaves as `EOFError`, i.e. `n`.  Returns the
state (the global flag or the rule table may change) and the decision. -/
def promptLoop (fs : CanaryFS) (key : String × Path) (now : Nat) :
    List Resp → CanaryFS × Bool
  | [] => (fs, false)
  | ans :: rest =>
    if pyStrip ans = [] ∨ (pyStrip ans).map pyLower = ['y'] then (fs, true)
    else if (pyStrip ans).map pyLower = ['a'] then
      ({ fs with global_allow_all := true }, true)
    else if (pyStrip ans).map pyLower = ['n'] then (fs, false)
    else if (pyStrip ans).getLast? = some 's' ∧ pyIsDigits (pyStrip ans).dropLast then
      ({ fs with allow_rules := ains fs.allow_rules key (Rule.mk (some (now + digitsToNat (pyStrip ans).dropLast)) none) }, true)
    else if pyIsDigits (pyStrip ans) then
      ({ fs with allow_rules := ains fs.allow_rules key (Rule.mk none (some (digitsToNat (pyStrip ans)))) }, true)
    else promptLoop fs key now rest

/-- The outcome of `_check_and_prompt`: the post-state, the decision, whether
an interactive prompt was reached, and the emitted log record. -/
structure CheckOut where
  fs : CanaryFS
  allowed : Bool
  prompted : Bool
  log : List (String × Path)
deriving DecidableEq, Repr

/-- `_check_and_prompt` (line 131): log unconditionally; short-circuit when
prompting is off or the global allow-all flag is set; otherwise consult the
rule table (consuming or lazily expiring a found rule) and fall back to the
interactive prompt. -/
def checkAndPrompt (fs : CanaryFS) (op : String) (p : Path) (now : Nat)
    (resps : List Resp) : CheckOut :=
  if ¬fs.ask ∨ fs.global_allow_all then ⟨fs, true, false, [(op, p)]⟩
  else
    match alook fs.allow_rules (ruleKey fs op p) with
    | some rule =>
      if rule.allowed now then
        ⟨{ fs with allow_rules := ains fs.allow_rules (ruleKey fs op p) rule.consume },
          true, false, [(op, p)]⟩
      else
        ⟨(promptLoop { fs with allow_rules := adel fs.allow_rules (ruleKey fs op p) }
            (ruleKey fs op p) now resps).1,
          (promptLoop { fs with allow_rules := adel fs.allow_rules (ruleKey fs op p) }
            (ruleKey fs op p) now resps).2, true, [(op, p)]⟩
    | none =>
      ⟨(promptLoop fs (ruleKey fs op p) now resps).1,
        (promptLoop fs (ruleKey fs op p) now resps).2, true, [(op, p)]⟩

/-! ### Operation dispatcher (spec section 4.3)

Every VFS-facing operation runs the rule-engine check (for `rename`, one
check per path) and on approval the node-store operation; a denial raises
`EACCES` and leaves the store untouched (the check itself may update the
rule table or the global flag).  `OpCall` packages one invocation with its
implicit inputs: the clock value and the console responses. -/

inductive OpCall where
  | create (p : Path) (mode now : Nat) (resps : List Resp)
  | mkdir (p : Path) (mode now : Nat) (resps : List Resp)
  | unlink (p : Path) (now : Nat) (resps : List Resp)
  | rmdir (p : Path) (now : Nat) (resps : List Resp)
  | rename (old new : Path) (now : Nat) (resps1 resps2 : List Resp)
  | read (p : Path) (size offset now : Nat) (resps : List Resp)
  | write (p : Path) (data : List Nat) (offset now : Nat) (resps : List Resp)
  | truncate (p : Path) (length now : Nat) (resps : List Resp)
  | utimens (p : Path) (times : Option (Nat × Nat)) (now : Nat) (resps : List Resp)
  | chmod (p : Path) (mode now : Nat) (resps : List Resp)
  | chown (p : Path) (uid gid : Int) (now : Nat) (resps : List Resp)
deriving DecidableEq, Repr

/-- Dispatch one full operation (rule-engine check, then store body),
returning the post-state. -/
def runOp (fs : CanaryFS) (c : OpCall) : CanaryFS :=
  match c with
  | .create p mode now resps =>
    let ck := checkAndPrompt fs "create" p now resps
    if ck.allowed then (ck.fs.create p mode now).1 else ck.fs
  | .mkdir p mode now resps =>
    let ck := checkAndPrompt fs "mkdir" p now resps
    if ck.allowed then (ck.fs.mkdir p mode now).1 else ck.fs
  | .unlink p now resps =>
    let ck := checkAndPrompt fs "unlink" p now resps
    if ck.allowed then (ck.fs.unlink p now).1 else ck.fs
  | .rmdir p now resps =>
    let ck := checkAndPrompt fs "rmdir" p now resps
    if ck.allowed then (ck.fs.rmdir p now).1 else ck.fs
  | .rename old new now r1 r2 =>
    let ck1 := checkAndPrompt fs "rename" old now r1
    if ck1.allowed then
      let ck2 := checkAndPrompt ck1.fs "rename" new now r2
      if ck2.allowed then (ck2.fs.rename old new now).1 else ck2.fs
    else ck1.fs
  | .read p size offset now resps =>
    let ck := checkAndPrompt fs "read" p now resps
    if ck.allowed then (ck.fs.read p size offset now).1 else ck.fs
  | .write p data offset now resps =>
    let ck := checkAndPrompt fs "write" p now resps
    if ck.allowed then (ck.fs.write p data offset now).1 else ck.fs
  | .truncate p length now resps =>
    let ck := checkAndPrompt fs "truncate" p now resps
    if ck.allowed then (ck.fs.truncate p length now).1 else ck.fs
  | .utimens p times now resps =>
    let ck := checkAndPrompt fs "utimens" p now resps
    if ck.allowed then (ck.fs.utimens p times now).1 else ck.fs
  | .chmod p mode now resps =>
    let ck := checkAndPrompt fs "chmod" p now resps
    if ck.allowed then (ck.fs.chmod p mode now).1 else ck.fs
  | .chown p uid gid now resps =>
    let ck := checkAndPrompt fs "chown" p now resps
    if ck.allowed then (ck.fs.chown p uid gid now).1 else ck.fs

/-- Run a sequence of operations from a given state. -/
def runOps (fs : CanaryFS) (cs : List OpCall) : CanaryFS := cs.foldl runOp fs

/-! ### Size accounting -/

/-- What one heap id contributes to `used`: the size of a file node, nothing
for a directory. -/
def usedContrib (heap : List Node) (i : Nat) : Nat :=
  if (getN heap i).is_dir then 0 else (getN heap i).size

/-- The sum of the sizes of all file nodes reachable through the path map:
the quantity the spec says `used` tracks. -/
def usedSum (files : List (Path × Nat)) (heap : List Node) : Nat :=
  (files.map (fun e => usedContrib heap e.2)).sum

theorem usedSum_nil (heap : List Node) : usedSum [] heap = 0 := rfl

theorem usedSum_cons (q : Path) (j : Nat) (t : List (Path × Nat)) (heap : List Node) :
    usedSum ((q, j) :: t) heap = usedContrib heap j + usedSum t heap := by
  simp [usedSum]

theorem usedSum_adel (l : List (Path × Nat)) (heap : List Node) (p : Path) (nid : Nat)
    (hp : alook l p = some nid) :
    usedSum (adel l p) heap + usedContrib heap nid = usedSum l heap := by
  induction l with
  | nil => simp [alook] at hp
  | cons hd t ih =>
    obtain ⟨q, j⟩ := hd
    by_cases hq : q = p
    · subst hq
      simp [alook] at hp
      subst hp
      simp [adel, usedSum_cons, Nat.add_comm]
    · simp only [alook, if_neg hq] at hp
      simp only [adel, if_neg hq, usedSum_cons]
      rw [Nat.add_assoc, ih hp]

theorem usedSum_ains_new (l : List (Path × Nat)) (heap : List Node) (p : Path) (nid : Nat)
    (hp : alook l p = none) :
    usedSum (ains l p nid) heap = usedSum l heap + usedContrib heap nid := by
  induction l with
  | nil => simp [ains, usedSum_cons, usedSum_nil, Nat.add_comm]
  | cons hd t ih =>
    obtain ⟨q, j⟩ := hd
    by_cases hq : q = p
    · simp [alook, hq] at hp
    · simp only [alook, if_neg hq] at hp
      simp only [ains, if_neg hq, usedSum_cons, ih hp]
      omega

theorem usedSum_ains_replace (l : List (Path × Nat)) (heap : List Node) (p : Path)
    (nid old : Nat) (hp : alook l p = some old) :
    usedSum (ains l p nid) heap + usedContrib heap old
      = usedSum l heap + usedContrib heap nid := by
  induction l with
  | nil => simp [alook] at hp
  | cons hd t ih =>
    obtain ⟨q, j⟩ := hd
    by_cases hq : q = p
    · subst hq
      have hp2 : j = old := by simpa [alook] using hp
      rw [hp2]
      simp [ains, usedSum_cons]
      omega
    · simp only [alook, if_neg hq] at hp
      simp only [ains, if_neg hq, usedSum_cons]
      have := ih hp
      omega

theorem usedSum_congr (l : List (Path × Nat)) (h1 h2 : List Node)
    (hcong : ∀ e ∈ l, usedContrib h1 e.2 = usedContrib h2 e.2) :
    usedSum l h1 = usedSum l h2 := by
  unfold usedSum
  rw [List.map_congr_left hcong]

/-- Replacing the node at one id changes the sum by exactly that entry's
contribution, provided no other entry shares the id. -/
theorem usedSum_set (l : List (Path × Nat)) (heap : List Node) (p : Path) (nid : Nat)
    (x : Node) (hC : keysNodup l) (hp : alook l p = some nid)
    (hinj : ∀ q, alook l q = some nid → q = p) :
    usedSum l (heap.set nid x) + usedContrib heap nid
      = usedSum l heap + usedContrib (heap.set nid x) nid := by
  induction l with
  | nil => simp [alook] at hp
  | cons hd t ih =>
    obtain ⟨q, j⟩ := hd
    have hCt : keysNodup t := (keysNodup_cons q j t hC).2
    by_cases hq : q = p
    · subst hq
      have hp2 : j = nid := by simpa [alook] using hp
      rw [hp2] at hinj ⊢
      have htail : ∀ e ∈ t, e.2 ≠ nid := by
        intro e he henid
        have hqe : alook t e.1 = some e.2 :=
          alook_eq_some_of_mem t e.1 e.2 hCt (by simpa using he)
        have hql : alook ((q, nid) :: t) e.1 = some e.2 := by
          have hne : q ≠ e.1 := by
            intro hqq
            have : e.1 ∈ t.map Prod.fst := List.mem_map.mpr ⟨e, he, rfl⟩
            rw [← hqq] at this
            exact (keysNodup_cons q nid t hC).1 this
          simp [alook, hne, hqe]
        have h2 : e.1 = q := hinj e.1 (hql.trans (by rw [henid]))
        have hmem : q ∈ t.map Prod.fst := by
          rw [← h2]
          exact List.mem_map.mpr ⟨e, he, rfl⟩
        exact (keysNodup_cons q nid t hC).1 hmem
      have hcong : usedSum t (heap.set nid x) = usedSum t heap :=
        usedSum_congr t _ _ (by
          intro e he
          have : e.2 ≠ nid := htail e he
          unfold usedContrib
          rw [getN_set_ne heap nid e.2 x (fun hh => this hh.symm)])
      simp only [usedSum_cons, hcong]
      omega
    · simp only [alook, if_neg hq] at hp
      have hjnid : j ≠ nid := by
        intro hj
        subst hj
        have : alook ((q, j) :: t) q = some j := by simp [alook]
        exact hq (hinj q this)
      have hinjt : ∀ r, alook t r = some nid → r = p := by
        intro r hr
        by_cases hrq : r = q
        · have hnone : alook t q = none := by
            rw [alook_eq_none_iff]
            exact (keysNodup_cons q j t hC).1
          rw [hrq, hnone] at hr
          exact absurd hr (by simp)
        · refine hinj r ?_
          have hqr : ¬q = r := fun hh => hrq hh.symm
          simp [alook, hqr, hr]
      have := ih hCt hp hinjt
      simp only [usedSum_cons]
      unfold usedContrib
      rw [getN_set_ne heap nid j x (fun hh => hjnid hh.symm)]
      unfold usedContrib at this
      omega

theorem usedSum_heap_congr_all (l : List (Path × Nat)) (h1 h2 : List Node)
    (hcong : ∀ i, usedContrib h1 i = usedContrib h2 i) :
    usedSum l h1 = usedSum l h2 :=
  usedSum_congr l h1 h2 (fun e _ => hcong e.2)

/-! ### Path facts -/

theorem splitPath_fst_nil (p : Path) (h : (splitPath p).1 = []) :
    p = [] ∨ p = [(splitPath p).2] := by
  match p with
  | [] => exact Or.inl rfl
  | [a] => exact Or.inr rfl
  | a :: b :: t => simp [splitPath] at h

theorem splitPath_snd_mem (p : Path) (h : p ≠ []) : (splitPath p).2 ∈ p := by
  match p with
  | [] => exact absurd rfl h
  | [a] => simp [splitPath]
  | a :: b :: t =>
    have := splitPath_snd_mem (b :: t) (by simp)
    simp only [splitPath]
    exact List.mem_cons.mpr (Or.inr this)

theorem splitPath_snd_ne_empty (p : Path) (hv : validPath p) (h : p ≠ []) :
    (splitPath p).2 ≠ "" :=
  (hv _ (splitPath_snd_mem p h)).1

/-! ### The C1 inductive invariant

Over sequences of `create`/`write`/`truncate`/`unlink`/`rmdir`/`rename`
(the operations claim C1 quantifies over — no `mkdir`), the reachable
states keep the following shape; `hA`/`hB` are the claimed facts, and the
remaining components are what makes the induction go through: distinct
paths and ids, valid ids, the only directory node is the initial root
(id 0, since only `mkdir` allocates directories), files have no children,
the root has no child named `""`, id 0 can sit only at path `[]`, and any
entry whose parent path resolves to a (live) directory is correctly listed
in that directory's child map. -/
structure Inv1 (fs : CanaryFS) : Prop where
  hA : fs.used = (usedSum fs.files fs.heap : Int)
  hB : fs.used ≤ (fs.capacity : Int)
  hC : keysNodup fs.files
  hInj : ∀ p q i, alook fs.files p = some i → alook fs.files q = some i → p = q
  hE : ∀ p i, alook fs.files p = some i → i < fs.heap.length
  hU : ∀ i, (getN fs.heap i).is_dir = true → i = 0
  hZ : ∀ i, i ≠ 0 → (getN fs.heap i).children = []
  hCN : ∀ i, keysNodup (getN fs.heap i).children
  hR : ∀ q, alook fs.files [] = some q → alook (getN fs.heap q).children "" = none
  hP0 : ∀ p, alook fs.files p = some 0 → p = []
  hH : ∀ p i, alook fs.files p = some i → p ≠ [] →
      ∀ qid, alook fs.files (splitPath p).1 = some qid →
      (getN fs.heap qid).is_dir = true →
      alook (getN fs.heap qid).children (splitPath p).2 = some i
  hV : ∀ p i, alook fs.files p = some i → validPath p

theorem inv1_init (capacity : Nat) (ask : Bool) (sc : String) :
    Inv1 (CanaryFS.init capacity ask sc) := by
  have hfiles : (CanaryFS.init capacity ask sc).files = [(([] : Path), 0)] := rfl
  have hheap : (CanaryFS.init capacity ask sc).heap = [Node.mk0 true (16384 + 493) 0] := rfl
  refine ⟨?_, ?_, ?_, ?_, ?_, ?_, ?_, ?_, ?_, ?_, ?_, ?_⟩
  · simp [CanaryFS.init, usedSum, usedContrib, getN, Node.mk0, usedSum_cons]
  · simp [CanaryFS.init]
  · simp [CanaryFS.init, keysNodup]
  · intro p q i hp hq
    rw [hfiles] at hp hq
    obtain ⟨hp1, _⟩ := (alook_singleton _ _ _ _).mp hp
    obtain ⟨hq1, _⟩ := (alook_singleton _ _ _ _).mp hq
    rw [← hp1, ← hq1]
  · intro p i hp
    rw [hfiles] at hp
    obtain ⟨_, hp2⟩ := (alook_singleton _ _ _ _).mp hp
    rw [← hp2, hheap]
    simp
  · intro i hd
    by_cases h0 : i = 0
    · exact h0
    · exfalso
      rw [hheap, getN_oob _ i (by simp; omega)] at hd
      simp [dNode, Node.mk0] at hd
  · intro i hne
    rw [hheap, getN_oob _ i (by simp; omega)]
    rfl
  · intro i
    by_cases h0 : i = 0
    · subst h0
      rw [hheap]
      simp [getN, Node.mk0, keysNodup]
    · rw [hheap, getN_oob _ i (by simp; omega)]
      simp [dNode, Node.mk0, keysNodup]
  · intro q hq
    rw [hfiles] at hq
    obtain ⟨_, hq2⟩ := (alook_singleton _ _ _ _).mp hq
    rw [← hq2, hheap]
    simp [getN, Node.mk0]
  · intro p hp
    rw [hfiles] at hp
    obtain ⟨hp1, _⟩ := (alook_singleton _ _ _ _).mp hp
    exact hp1.symm
  · intro p i hp hne qid hq hd
    rw [hfiles] at hp
    obtain ⟨hp1, _⟩ := (alook_singleton _ _ _ _).mp hp
    exact absurd hp1.symm hne
  · intro p i hp
    rw [hfiles] at hp
    obtain ⟨hp1, _⟩ := (alook_singleton _ _ _ _).mp hp
    rw [← hp1]
    intro s hs
    exact absurd hs (by simp)

/-- The state components the node store owns; the rule engine never touches
them. -/
def sameStore (a b : CanaryFS) : Prop :=
  a.capacity = b.capacity ∧ a.used = b.used ∧ a.fd = b.fd ∧
    a.files = b.files ∧ a.heap = b.heap

theorem sameStore_refl (a : CanaryFS) : sameStore a a := ⟨rfl, rfl, rfl, rfl, rfl⟩

theorem sameStore_trans (a b c : CanaryFS) (h1 : sameStore a b) (h2 : sameStore b c) :
    sameStore a c := by
  obtain ⟨x1, x2, x3, x4, x5⟩ := h1
  obtain ⟨y1, y2, y3, y4, y5⟩ := h2
  exact ⟨x1.trans y1, x2.trans y2, x3.trans y3, x4.trans y4, x5.trans y5⟩

theorem promptLoop_sameStore (fs : CanaryFS) (key : String × Path) (now : Nat) :
    ∀ resps, sameStore (promptLoop fs key now resps).1 fs
  | [] => sameStore_refl fs
  | ans :: rest => by
    unfold promptLoop
    split
    · exact sameStore_refl fs
    split
    · exact ⟨rfl, rfl, rfl, rfl, rfl⟩
    split
    · exact sameStore_refl fs
    split
    · exact ⟨rfl, rfl, rfl, rfl, rfl⟩
    split
    · exact ⟨rfl, rfl, rfl, rfl, rfl⟩
    · exact promptLoop_sameStore fs key now rest

theorem checkAndPrompt_sameStore (fs : CanaryFS) (op : String) (p : Path)
    (now : Nat) (resps : List Resp) :
    sameStore (checkAndPrompt fs op p now resps).fs fs := by
  unfold checkAndPrompt
  split
  · exact sameStore_refl fs
  split
  · split
    · exact ⟨rfl, rfl, rfl, rfl, rfl⟩
    · exact sameStore_trans _ _ _
        (promptLoop_sameStore _ _ now resps) ⟨rfl, rfl, rfl, rfl, rfl⟩
  · exact promptLoop_sameStore _ _ now resps

theorem inv1_of_sameStore (a b : CanaryFS) (h : sameStore a b) (hv : Inv1 b) :
    Inv1 a := by
  obtain ⟨h1, h2, h3, h4, h5⟩ := h
  exact
    { hA := by rw [h2, h4, h5]; exact hv.hA
      hB := by rw [h2, h1]; exact hv.hB
      hC := by rw [h4]; exact hv.hC
      hInj := by rw [h4]; exact hv.hInj
      hE := by rw [h4, h5]; exact hv.hE
      hU := by rw [h5]; exact hv.hU
      hZ := by rw [h5]; exact hv.hZ
      hCN := by rw [h5]; exact hv.hCN
      hR := by rw [h4, h5]; exact hv.hR
      hP0 := by rw [h4]; exact hv.hP0
      hH := by rw [h4, h5]; exact hv.hH
      hV := by rw [h4]; exact hv.hV }

/-- In an `Inv1` state a path resolving to a directory must be the root
entry: the only directory node is id 0 and id 0 only sits at path `[]`. -/
theorem liveDir_eq_root (fs : CanaryFS) (hv : Inv1 fs) (q : Path) (qid : Nat)
    (hq : alook fs.files q = some qid) (hd : (getN fs.heap qid).is_dir = true) :
    qid = 0 ∧ q = [] := by
  have h0 := hv.hU qid hd
  subst h0
  exact ⟨rfl, hv.hP0 q hq⟩

/-- Characterization of a successful `_ensure_parent` under `Inv1`. -/
theorem ensureParent_ok (fs : CanaryFS) (hv : Inv1 fs) (p : Path) (pid : Nat)
    (name : String) (h : ensureParent fs p = .ok (pid, name)) :
    pid = 0 ∧ (splitPath p).1 = [] ∧ name = (splitPath p).2 ∧
      alook fs.files [] = some 0 ∧ (getN fs.heap 0).is_dir = true := by
  unfold ensureParent at h
  split at h
  · exact absurd h (by simp)
  · rename_i pid2 hq
    split at h
    · rename_i hd
      simp only [Except.ok.injEq, Prod.mk.injEq] at h
      obtain ⟨hpid, hname⟩ := h
      obtain ⟨h0, hroot⟩ := liveDir_eq_root fs hv _ pid2 hq hd
      rw [hroot, h0] at hq
      rw [h0] at hd
      exact ⟨hpid.symm.trans h0, hroot, hname.symm, hq, hd⟩
    · exact absurd h (by simp)

/-! ### Inv1 preservation, operation by operation -/

/-- Replacing the node of one file entry (same kind, same children) keeps
`Inv1`, provided `used` moves by the size difference and stays within
capacity.  This covers the mutation performed by `write` and `truncate`. -/
theorem inv1_set_file (fs : CanaryFS) (p : Path) (nid : Nat) (x : Node)
    (hv : Inv1 fs) (hp : alook fs.files p = some nid)
    (hfile : (getN fs.heap nid).is_dir = false)
    (hxdir : x.is_dir = false)
    (hch : x.children = (getN fs.heap nid).children)
    (u2 : Int)
    (hused : u2 = fs.used - ((getN fs.heap nid).size : Int) + (x.size : Int))
    (hcap : u2 ≤ (fs.capacity : Int)) :
    Inv1 { fs with heap := fs.heap.set nid x, used := u2 } := by
  have hlen : nid < fs.heap.length := hv.hE p nid hp
  have hget : getN (fs.heap.set nid x) nid = x := getN_set_self _ _ _ hlen
  have hinj2 : ∀ q, alook fs.files q = some nid → q = p :=
    fun q hq => hv.hInj q p nid hq hp
  have hsum := usedSum_set fs.files fs.heap p nid x hv.hC hp hinj2
  have hc1 : usedContrib fs.heap nid = (getN fs.heap nid).size := by
    unfold usedContrib
    rw [hfile]
    simp
  have hc2 : usedContrib (fs.heap.set nid x) nid = x.size := by
    unfold usedContrib
    rw [hget, hxdir]
    simp
  rw [hc1, hc2] at hsum
  have hA := hv.hA
  have hB := hv.hB
  refine ⟨?_, ?_, hv.hC, hv.hInj, ?_, ?_, ?_, ?_, ?_, hv.hP0, ?_, hv.hV⟩
  · show u2 = (usedSum fs.files (fs.heap.set nid x) : Int)
    omega
  · exact hcap
  · intro q i hq
    show i < (fs.heap.set nid x).length
    rw [List.length_set]
    exact hv.hE q i hq
  · intro i hd
    by_cases hi : i = nid
    · subst hi
      rw [hget] at hd
      rw [hxdir] at hd
      exact absurd hd (by simp)
    · rw [getN_set_ne _ _ _ _ (fun hh => hi hh.symm)] at hd
      exact hv.hU i hd
  · intro i hne
    by_cases hi : i = nid
    · subst hi
      rw [hget, hch]
      exact hv.hZ i hne
    · rw [getN_set_ne _ _ _ _ (fun hh => hi hh.symm)]
      exact hv.hZ i hne
  · intro i
    by_cases hi : i = nid
    · subst hi
      rw [hget, hch]
      exact hv.hCN i
    · rw [getN_set_ne _ _ _ _ (fun hh => hi hh.symm)]
      exact hv.hCN i
  · intro q hq
    by_cases hi : q = nid
    · subst hi
      rw [hget, hch]
      exact hv.hR q hq
    · rw [getN_set_ne _ _ _ _ (fun hh => hi hh.symm)]
      exact hv.hR q hq
  · intro q i hq hne qid hqid hd
    by_cases hi : qid = nid
    · subst hi
      rw [hget, hxdir] at hd
      exact absurd hd (by simp)
    · rw [getN_set_ne _ _ _ _ (fun hh => hi hh.symm)] at hd ⊢
      exact hv.hH q i hq hne qid hqid hd

theorem inv1_write (fs : CanaryFS) (p : Path) (data : List Nat) (offset now : Nat)
    (hv : Inv1 fs) : Inv1 (fs.write p data offset now).1 := by
  unfold CanaryFS.write
  split
  · exact hv
  rename_i nid hp
  dsimp only
  split
  · exact hv
  rename_i hdir
  split
  · exact hv
  rename_i hsp
  have hfile : (getN fs.heap nid).is_dir = false := by
    revert hdir
    cases (getN fs.heap nid).is_dir <;> simp
  refine inv1_set_file fs p nid _ hv hp hfile ?_ ?_ _ ?_ ?_
  · exact hfile
  · exact rfl
  · push_cast
    ring
  · unfold spaceShort at hsp
    have hB := hv.hB
    simp only [not_and, not_lt] at hsp
    generalize hd : (((getN fs.heap nid).size ⊔ (offset + data.length) : Nat) : Int)
      - ((getN fs.heap nid).size : Int) = d at hsp ⊢
    by_cases h0 : 0 < d
    · have := hsp h0
      omega
    · omega

theorem inv1_truncate (fs : CanaryFS) (p : Path) (length now : Nat)
    (hv : Inv1 fs) : Inv1 (fs.truncate p length now).1 := by
  unfold CanaryFS.truncate
  split
  · exact hv
  rename_i nid hp
  dsimp only
  split
  · exact hv
  rename_i hdir
  have hfile : (getN fs.heap nid).is_dir = false := by
    revert hdir
    cases (getN fs.heap nid).is_dir <;> simp
  have hB := hv.hB
  split
  · rename_i hlt
    refine inv1_set_file fs p nid _ hv hp hfile ?_ ?_ _ ?_ ?_
    · exact hfile
    · exact rfl
    · dsimp only
      omega
    · dsimp only
      omega
  rename_i hnlt
  split
  · rename_i hgt
    split
    · exact hv
    rename_i hsp
    refine inv1_set_file fs p nid _ hv hp hfile ?_ ?_ _ ?_ ?_
    · exact hfile
    · exact rfl
    · dsimp only
      omega
    · unfold spaceShort at hsp
      simp only [not_and, not_lt] at hsp
      have h0 : (0 : Int) < ((length - (getN fs.heap nid).size : Nat) : Int) := by
        omega
      have := hsp h0
      omega
  · refine inv1_set_file fs p nid _ hv hp hfile ?_ ?_ _ ?_ ?_
    · exact hfile
    · exact rfl
    · dsimp only
      omega
    · dsimp only
      omega

theorem getN_setappend_at (heap : List Node) (y x : Node) (hl : 0 < heap.length) :
    getN (heap.set 0 y ++ [x]) 0 = y := by
  rw [getN_append_lt _ _ _ (by rw [List.length_set]; exact hl)]
  exact getN_set_self heap 0 y hl

theorem getN_setappend_len (heap : List Node) (y x : Node) :
    getN (heap.set 0 y ++ [x]) heap.length = x := by
  have h : heap.length = (heap.set 0 y).length := (List.length_set heap 0 y).symm
  rw [h]
  exact getN_append_len _ x

theorem getN_setappend_other (heap : List Node) (y x : Node) (i : Nat)
    (h0 : i ≠ 0) (hL : i ≠ heap.length) :
    getN (heap.set 0 y ++ [x]) i = getN heap i := by
  by_cases hi : i < heap.length
  · rw [getN_append_lt _ _ _ (by rw [List.length_set]; exact hi)]
    exact getN_set_ne heap 0 i y (fun hh => h0 hh.symm)
  · rw [getN_oob heap i (by omega)]
    apply getN_oob
    simp only [List.length_append, List.length_set, List.length_cons, List.length_nil]
    omega

/-- State change of `create`: allocate a fresh file node, list it under the
root directory's children and in the path map.  (Under `Inv1` the parent of
any creatable path is the root: the only live directory.) -/
theorem inv1_insert_child (fs : CanaryFS) (p : Path) (x y : Node) (fd2 : Nat)
    (hv : Inv1 fs) (hvp : validPath p)
    (hroot : alook fs.files [] = some 0)
    (hrdir : (getN fs.heap 0).is_dir = true)
    (hfst : (splitPath p).1 = [])
    (hnone : alook (getN fs.heap 0).children (splitPath p).2 = none)
    (hxdir : x.is_dir = false) (hxch : x.children = []) (hxsize : x.size = 0)
    (hydir : y.is_dir = true)
    (hych : y.children = ains (getN fs.heap 0).children (splitPath p).2 fs.heap.length) :
    Inv1 { fs with heap := fs.heap.set 0 y ++ [x], files := ains fs.files p fs.heap.length, fd := fd2 } := by
  have hlen0 : 0 < fs.heap.length := hv.hE [] 0 hroot
  have g0 : getN (fs.heap.set 0 y ++ [x]) 0 = y := getN_setappend_at _ _ _ hlen0
  have gL : getN (fs.heap.set 0 y ++ [x]) fs.heap.length = x := getN_setappend_len _ _ _
  have gOther : ∀ i, i ≠ 0 → i ≠ fs.heap.length →
      getN (fs.heap.set 0 y ++ [x]) i = getN fs.heap i :=
    fun i h1 h2 => getN_setappend_other _ _ _ i h1 h2
  have hcontrib : ∀ i, usedContrib (fs.heap.set 0 y ++ [x]) i = usedContrib fs.heap i := by
    intro i
    by_cases h0 : i = 0
    · subst h0
      unfold usedContrib
      rw [g0, hydir, hrdir]
      simp
    · by_cases hL : i = fs.heap.length
      · subst hL
        unfold usedContrib
        rw [gL, hxdir, getN_oob fs.heap _ (Nat.le_refl _)]
        simp [hxsize, dNode, Node.mk0]
      · unfold usedContrib
        rw [gOther i h0 hL]
  have hsums : ∀ l, usedSum l (fs.heap.set 0 y ++ [x]) = usedSum l fs.heap :=
    fun l => usedSum_heap_congr_all l _ _ hcontrib
  have hlook2 : ∀ q i, alook (ains fs.files p fs.heap.length) q = some i →
      (q = p ∧ i = fs.heap.length) ∨ (q ≠ p ∧ alook fs.files q = some i) := by
    intro q i hq
    by_cases hqp : q = p
    · subst hqp
      rw [alook_ains_self] at hq
      simp only [Option.some.injEq] at hq
      exact Or.inl ⟨rfl, hq.symm⟩
    · rw [alook_ains_ne _ _ _ _ (fun hh => hqp hh.symm)] at hq
      exact Or.inr ⟨hqp, hq⟩
  have hjzero : ∀ j, alook fs.files p = some j → usedContrib fs.heap j = 0 := by
    intro j hj
    by_cases hpe : p = []
    · subst hpe
      rw [hroot] at hj
      simp only [Option.some.injEq] at hj
      unfold usedContrib
      rw [← hj, hrdir]
      simp
    · exfalso
      have := hv.hH p j hj hpe 0 (hfst ▸ hroot) hrdir
      rw [this] at hnone
      exact absurd hnone (by simp)
  have hU2 : ∀ i, (getN (fs.heap.set 0 y ++ [x]) i).is_dir = true → i = 0 := by
    intro i hd
    by_cases h0 : i = 0
    · exact h0
    · by_cases hL : i = fs.heap.length
      · subst hL
        rw [gL, hxdir] at hd
        exact absurd hd (by simp)
      · rw [gOther i h0 hL] at hd
        exact hv.hU i hd
  refine ⟨?_, ?_, ?_, ?_, ?_, hU2, ?_, ?_, ?_, ?_, ?_, ?_⟩
  · show fs.used = (usedSum (ains fs.files p fs.heap.length) (fs.heap.set 0 y ++ [x]) : Int)
    rw [hsums]
    rcases hpc : alook fs.files p with _ | j
    · rw [usedSum_ains_new fs.files fs.heap p _ hpc]
      have hcL : usedContrib fs.heap fs.heap.length = 0 := by
        unfold usedContrib
        rw [getN_oob fs.heap _ (Nat.le_refl _)]
        simp [dNode, Node.mk0]
      rw [hcL]
      have hA := hv.hA
      omega
    · have heq := usedSum_ains_replace fs.files fs.heap p fs.heap.length j hpc
      have hcL : usedContrib fs.heap fs.heap.length = 0 := by
        unfold usedContrib
        rw [getN_oob fs.heap _ (Nat.le_refl _)]
        simp [dNode, Node.mk0]
      have hcj := hjzero j hpc
      have hA := hv.hA
      omega
  · exact hv.hB
  · exact keysNodup_ains _ _ _ hv.hC
  · intro q r i hq hr
    rcases hlook2 q i hq with ⟨hq1, hq2⟩ | ⟨hq1, hq2⟩ <;>
      rcases hlook2 r i hr with ⟨hr1, hr2⟩ | ⟨hr1, hr2⟩
    · rw [hq1, hr1]
    · exact absurd (hv.hE r i hr2) (by omega)
    · exact absurd (hv.hE q i hq2) (by omega)
    · exact hv.hInj q r i hq2 hr2
  · intro q i hq
    show i < (fs.heap.set 0 y ++ [x]).length
    have hlen : (fs.heap.set 0 y ++ [x]).length = fs.heap.length + 1 := by
      simp [List.length_set]
    rw [hlen]
    rcases hlook2 q i hq with ⟨_, hq2⟩ | ⟨_, hq2⟩
    · omega
    · have := hv.hE q i hq2
      omega
  · intro i hne
    by_cases hL : i = fs.heap.length
    · subst hL
      rw [gL, hxch]
    · rw [gOther i hne hL]
      exact hv.hZ i hne
  · intro i
    by_cases h0 : i = 0
    · subst h0
      rw [g0, hych]
      exact keysNodup_ains _ _ _ (hv.hCN 0)
    · by_cases hL : i = fs.heap.length
      · subst hL
        rw [gL, hxch]
        simp [keysNodup]
      · rw [gOther i h0 hL]
        exact hv.hCN i
  · intro q hq
    by_cases hpe : p = []
    · subst hpe
      rw [alook_ains_self] at hq
      simp only [Option.some.injEq] at hq
      rw [← hq, gL, hxch]
      simp
    · rw [alook_ains_ne fs.files p [] fs.heap.length hpe] at hq
      rw [hroot] at hq
      simp only [Option.some.injEq] at hq
      rw [← hq, g0, hych]
      rw [alook_ains_ne _ _ _ _ (splitPath_snd_ne_empty p hvp hpe)]
      exact hv.hR 0 hroot
  · intro q hq
    rcases hlook2 q 0 hq with ⟨hq1, hq2⟩ | ⟨hq1, hq2⟩
    · exact absurd hq2.symm (by omega)
    · exact hv.hP0 q hq2
  · intro q i hq hne qid hqid hd
    have hq0 : qid = 0 := hU2 qid hd
    subst hq0
    rw [g0, hych]
    have hqid2 : alook fs.files (splitPath q).1 = some 0 := by
      rcases hlook2 _ 0 hqid with ⟨hh1, hh2⟩ | ⟨hh1, hh2⟩
      · exact absurd hh2.symm (by omega)
      · exact hh2
    have hqfst : (splitPath q).1 = [] := hv.hP0 _ hqid2
    rcases hlook2 q i hq with ⟨hq1, hq2⟩ | ⟨hq1, hq2⟩
    · subst hq1
      rw [hq2, alook_ains_self]
    · have hold := hv.hH q i hq2 hne 0 hqid2 hrdir
      have hsne : (splitPath q).2 ≠ (splitPath p).2 := by
        intro heq
        rcases splitPath_fst_nil q hqfst with hcq | hcq
        · exact hne hcq
        · rcases splitPath_fst_nil p hfst with hcp | hcp
          · have hqv : validPath q := hv.hV q i hq2
            have := splitPath_snd_ne_empty q hqv hne
            rw [heq, hcp] at this
            exact this rfl
          · exact hq1 (by rw [hcq, hcp, heq])
      rw [alook_ains_ne _ _ _ _ (fun hh => hsne hh.symm)]
      exact hold
  · intro q i hq
    rcases hlook2 q i hq with ⟨hq1, _⟩ | ⟨_, hq2⟩
    · rw [hq1]
      exact hvp
    · exact hv.hV q i hq2

theorem inv1_create (fs : CanaryFS) (p : Path) (mode now : Nat)
    (hvp : validPath p) (hv : Inv1 fs) : Inv1 (fs.create p mode now).1 := by
  unfold CanaryFS.create
  split
  · exact hv
  rename_i pid name hep
  dsimp only
  split
  · exact hv
  rename_i hmem
  obtain ⟨hpid0, hfst, hname, hroot, hrdir⟩ := ensureParent_ok fs hv p pid name hep
  subst hpid0
  have hnone : alook (getN fs.heap 0).children name = none := by
    revert hmem
    cases alook (getN fs.heap 0).children name <;> simp
  rw [hname] at hnone
  refine inv1_insert_child fs p _ _ _ hv hvp hroot hrdir hfst hnone ?_ ?_ ?_ ?_ ?_
  · exact rfl
  · exact rfl
  · exact rfl
  · exact hrdir
  · rw [hname]

/-- State change of `unlink`: drop a non-root entry from the path map and
from the root directory's child map, releasing its contribution to `used`. -/
theorem inv1_remove_child (fs : CanaryFS) (p : Path) (nid : Nat) (y : Node) (u2 : Int)
    (hv : Inv1 fs)
    (hp : alook fs.files p = some nid)
    (hpne : p ≠ [])
    (hfst : (splitPath p).1 = [])
    (hroot : alook fs.files [] = some 0)
    (hrdir : (getN fs.heap 0).is_dir = true)
    (hydir : y.is_dir = true)
    (hych : y.children = adel (getN fs.heap 0).children (splitPath p).2)
    (hused : u2 = fs.used - (usedContrib fs.heap nid : Int)) :
    Inv1 { fs with heap := fs.heap.set 0 y, files := adel fs.files p, used := u2 } := by
  have hlen0 : 0 < fs.heap.length := hv.hE [] 0 hroot
  have g0 : getN (fs.heap.set 0 y) 0 = y := getN_set_self _ _ _ hlen0
  have gOther : ∀ i, i ≠ 0 → getN (fs.heap.set 0 y) i = getN fs.heap i :=
    fun i h1 => getN_set_ne _ _ _ _ (fun hh => h1 hh.symm)
  have hcontrib : ∀ i, usedContrib (fs.heap.set 0 y) i = usedContrib fs.heap i := by
    intro i
    by_cases h0 : i = 0
    · subst h0
      unfold usedContrib
      rw [g0, hydir, hrdir]
      simp
    · unfold usedContrib
      rw [gOther i h0]
  have hlook2 : ∀ q i, alook (adel fs.files p) q = some i →
      q ≠ p ∧ alook fs.files q = some i := by
    intro q i hq
    by_cases hqp : q = p
    · subst hqp
      rw [alook_adel_self fs.files q hv.hC] at hq
      exact absurd hq (by simp)
    · rw [alook_adel_ne fs.files p q (fun hh => hqp hh.symm)] at hq
      exact ⟨hqp, hq⟩
  have hU2 : ∀ i, (getN (fs.heap.set 0 y) i).is_dir = true → i = 0 := by
    intro i hd
    by_cases h0 : i = 0
    · exact h0
    · rw [gOther i h0] at hd
      exact hv.hU i hd
  refine ⟨?_, ?_, ?_, ?_, ?_, hU2, ?_, ?_, ?_, ?_, ?_, ?_⟩
  · show u2 = (usedSum (adel fs.files p) (fs.heap.set 0 y) : Int)
    rw [usedSum_heap_congr_all _ _ _ hcontrib]
    have heq := usedSum_adel fs.files fs.heap p nid hp
    have hA := hv.hA
    omega
  · show u2 ≤ (fs.capacity : Int)
    have hB := hv.hB
    have : (0 : Int) ≤ (usedContrib fs.heap nid : Int) := by positivity
    omega
  · exact keysNodup_adel _ _ hv.hC
  · intro q r i hq hr
    exact hv.hInj q r i (hlook2 q i hq).2 (hlook2 r i hr).2
  · intro q i hq
    show i < (fs.heap.set 0 y).length
    rw [List.length_set]
    exact hv.hE q i (hlook2 q i hq).2
  · intro i hne
    rw [gOther i hne]
    exact hv.hZ i hne
  · intro i
    by_cases h0 : i = 0
    · subst h0
      rw [g0, hych]
      exact keysNodup_adel _ _ (hv.hCN 0)
    · rw [gOther i h0]
      exact hv.hCN i
  · intro q hq
    rw [alook_adel_ne fs.files p [] hpne, hroot] at hq
    simp only [Option.some.injEq] at hq
    rw [← hq, g0, hych]
    have hpv : validPath p := hv.hV p nid hp
    rw [alook_adel_ne _ _ _ (splitPath_snd_ne_empty p hpv hpne)]
    exact hv.hR 0 hroot
  · intro q hq
    exact hv.hP0 q (hlook2 q 0 hq).2
  · intro q i hq hne qid hqid hd
    dsimp only at hq hqid hd ⊢
    have hq0 : qid = 0 := hU2 qid hd
    subst hq0
    rw [g0, hych]
    obtain ⟨hqp, hq2⟩ := hlook2 q i hq
    have hqid2 : alook fs.files (splitPath q).1 = some 0 := (hlook2 _ 0 hqid).2
    have hold := hv.hH q i hq2 hne 0 hqid2 hrdir
    have hsne : (splitPath q).2 ≠ (splitPath p).2 := by
      intro heq
      have hqfst : (splitPath q).1 = [] := hv.hP0 _ hqid2
      rcases splitPath_fst_nil q hqfst with hcq | hcq
      · exact hne hcq
      · rcases splitPath_fst_nil p hfst with hcp | hcp
        · exact hpne hcp
        · exact hqp (by rw [hcq, hcp, heq])
    rw [alook_adel_ne _ _ _ (fun hh => hsne hh.symm)]
    exact hold
  · intro q i hq
    exact hv.hV q i (hlook2 q i hq).2

theorem inv1_unlink (fs : CanaryFS) (p : Path) (now : Nat)
    (hv : Inv1 fs) : Inv1 (fs.unlink p now).1 := by
  unfold CanaryFS.unlink
  split
  · exact hv
  rename_i nid hp
  try dsimp only
  split
  · exact hv
  rename_i hdir
  split
  · exact hv
  rename_i pid name hep
  try dsimp only
  split
  · exact hv
  rename_i hsome
  obtain ⟨hpid0, hfst, hname, hroot, hrdir⟩ := ensureParent_ok fs hv p pid name hep
  subst hpid0
  have hfile : (getN fs.heap nid).is_dir = false := by
    revert hdir
    cases (getN fs.heap nid).is_dir <;> simp
  have hpne : p ≠ [] := by
    intro h
    subst h
    rw [hroot] at hp
    simp only [Option.some.injEq] at hp
    rw [hp] at hrdir
    rw [hrdir] at hfile
    exact absurd hfile (by simp)
  refine inv1_remove_child fs p nid _ _ hv hp hpne hfst hroot hrdir ?_ ?_ ?_
  · exact hrdir
  · rw [hname]
  · unfold usedContrib
    rw [hfile]
    simp

theorem inv1_rmdir (fs : CanaryFS) (p : Path) (now : Nat)
    (hv : Inv1 fs) : Inv1 (fs.rmdir p now).1 := by
  unfold CanaryFS.rmdir
  split
  · exact hv
  rename_i nid hp
  try dsimp only
  split
  · exact hv
  rename_i hdir
  split
  · exact hv
  rename_i hch
  split
  · exact hv
  rename_i pid name hep
  try dsimp only
  split
  · exact hv
  rename_i hsome
  exfalso
  obtain ⟨hpid0, hfst, hname, hroot, hrdir⟩ := ensureParent_ok fs hv p pid name hep
  subst hpid0
  have hdir2 : (getN fs.heap nid).is_dir = true := by
    revert hdir
    cases (getN fs.heap nid).is_dir <;> simp
  have hnid0 : nid = 0 := hv.hU nid hdir2
  have hpe : p = [] := hv.hP0 p (by rw [← hnid0]; exact hp)
  have hnamee : name = "" := by
    rw [hname, hpe]
    rfl
  have hr := hv.hR 0 hroot
  rw [hnamee, hr] at hsome
  exact hsome (by simp)

/-- State change of a completed `rename`: the path map drops `old` and binds
`new` to the moved node, and the root directory's child map replaces the old
name by the new one.  `H` abstracts the post-rename heap (the root's child
map and timestamps are rewritten in place, everything else is untouched). -/
theorem inv1_rename_move (g : CanaryFS) (old new : Path) (nid : Nat) (H : List Node)
    (hv : Inv1 g) (hvnew : validPath new)
    (hon : (splitPath old).1 = []) (hnn : (splitPath new).1 = [])
    (honn : old ≠ [])
    (hroot : alook g.files [] = some 0) (hrdir : (getN g.heap 0).is_dir = true)
    (hold : alook g.files old = some nid)
    (hnewf : alook g.files new = none ∨ new = [])
    (hH0ch : (getN H 0).children
      = ains (adel (getN g.heap 0).children (splitPath old).2) (splitPath new).2 nid)
    (hH0dir : (getN H 0).is_dir = true)
    (hHother : ∀ i, i ≠ 0 → getN H i = getN g.heap i)
    (hHlen : H.length = g.heap.length) :
    Inv1 { g with heap := H, files := ains (adel g.files old) new nid } := by
  have hnidO : nid ≠ 0 := by
    intro h
    rw [h] at hold
    exact honn (hv.hP0 old hold)
  have holdp : old = [(splitPath old).2] := (splitPath_fst_nil old hon).resolve_left honn
  have hvold : validPath old := hv.hV old nid hold
  have hcontrib : ∀ i, usedContrib H i = usedContrib g.heap i := by
    intro i
    by_cases h0 : i = 0
    · subst h0
      unfold usedContrib
      rw [hH0dir, hrdir]
      simp
    · unfold usedContrib
      rw [hHother i h0]
  have hlook2 : ∀ q i, alook (ains (adel g.files old) new nid) q = some i →
      (q = new ∧ i = nid) ∨ (q ≠ new ∧ q ≠ old ∧ alook g.files q = some i) := by
    intro q i hq
    by_cases hqn : q = new
    · subst hqn
      rw [alook_ains_self] at hq
      simp only [Option.some.injEq] at hq
      exact Or.inl ⟨rfl, hq.symm⟩
    · rw [alook_ains_ne _ new q _ (fun hh => hqn hh.symm)] at hq
      by_cases hqo : q = old
      · subst hqo
        rw [alook_adel_self g.files q hv.hC] at hq
        exact absurd hq (by simp)
      · rw [alook_adel_ne g.files old q (fun hh => hqo hh.symm)] at hq
        exact Or.inr ⟨hqn, hqo, hq⟩
  have hU2 : ∀ i, (getN H i).is_dir = true → i = 0 := by
    intro i hd
    by_cases h0 : i = 0
    · exact h0
    · rw [hHother i h0] at hd
      exact hv.hU i hd
  refine ⟨?_, ?_, ?_, ?_, ?_, hU2, ?_, ?_, ?_, ?_, ?_, ?_⟩
  · show g.used = (usedSum (ains (adel g.files old) new nid) H : Int)
    rw [usedSum_heap_congr_all _ _ _ hcontrib]
    have hdel := usedSum_adel g.files g.heap old nid hold
    have hA := hv.hA
    rcases hnewf with hnl | hnr
    · have holdnew : old ≠ new := by
        intro h
        rw [h, hnl] at hold
        exact absurd hold (by simp)
      have hnone2 : alook (adel g.files old) new = none := by
        rw [alook_adel_ne g.files old new holdnew]
        exact hnl
      rw [usedSum_ains_new _ g.heap new nid hnone2]
      omega
    · subst hnr
      have hroot2 : alook (adel g.files old) [] = some 0 := by
        rw [alook_adel_ne g.files old [] honn]
        exact hroot
      have hrepl := usedSum_ains_replace (adel g.files old) g.heap [] nid 0 hroot2
      have hc0 : usedContrib g.heap 0 = 0 := by
        unfold usedContrib
        rw [hrdir]
        simp
      omega
  · exact hv.hB
  · exact keysNodup_ains _ _ _ (keysNodup_adel _ _ hv.hC)
  · intro q r i hq hr
    rcases hlook2 q i hq with ⟨hq1, hq2⟩ | ⟨hq1, hq1o, hq2⟩ <;>
      rcases hlook2 r i hr with ⟨hr1, hr2⟩ | ⟨hr1, hr1o, hr2⟩
    · rw [hq1, hr1]
    · exfalso
      rw [hq2] at hr2
      exact hr1o (hv.hInj r old nid hr2 hold)
    · exfalso
      rw [hr2] at hq2
      exact hq1o (hv.hInj q old nid hq2 hold)
    · exact hv.hInj q r i hq2 hr2
  · intro q i hq
    show i < H.length
    rw [hHlen]
    rcases hlook2 q i hq with ⟨_, hq2⟩ | ⟨_, _, hq2⟩
    · rw [hq2]
      exact hv.hE old nid hold
    · exact hv.hE q i hq2
  · intro i hne
    rw [hHother i hne]
    exact hv.hZ i hne
  · intro i
    by_cases h0 : i = 0
    · subst h0
      rw [hH0ch]
      exact keysNodup_ains _ _ _ (keysNodup_adel _ _ (hv.hCN 0))
    · rw [hHother i h0]
      exact hv.hCN i
  · intro q hq
    by_cases hne : new = []
    · subst hne
      rw [alook_ains_self] at hq
      simp only [Option.some.injEq] at hq
      rw [← hq, hHother nid hnidO]
      rw [hv.hZ nid hnidO]
      simp
    · rw [alook_ains_ne _ new [] _ hne] at hq
      rw [alook_adel_ne g.files old [] honn, hroot] at hq
      simp only [Option.some.injEq] at hq
      rw [← hq, hH0ch]
      have hnewp : new = [(splitPath new).2] := (splitPath_fst_nil new hnn).resolve_left hne
      have hnne : (splitPath new).2 ≠ "" := splitPath_snd_ne_empty new hvnew hne
      have hone : (splitPath old).2 ≠ "" := splitPath_snd_ne_empty old hvold honn
      rw [alook_ains_ne _ _ _ _ hnne, alook_adel_ne _ _ _ hone]
      exact hv.hR 0 hroot
  · intro q hq
    rcases hlook2 q 0 hq with ⟨_, hq2⟩ | ⟨_, _, hq2⟩
    · exact absurd hq2.symm hnidO
    · exact hv.hP0 q hq2
  · intro q i hq hne qid hqid hd
    dsimp only at hq hqid hd ⊢
    have hq0 : qid = 0 := hU2 qid hd
    subst hq0
    rw [hH0ch]
    have hqid2 : alook g.files (splitPath q).1 = some 0 := by
      rcases hlook2 _ 0 hqid with ⟨_, hh2⟩ | ⟨_, _, hh2⟩
      · exact absurd hh2.symm hnidO
      · exact hh2
    have hqfst : (splitPath q).1 = [] := hv.hP0 _ hqid2
    have hqp : q = [(splitPath q).2] := (splitPath_fst_nil q hqfst).resolve_left hne
    rcases hlook2 q i hq with ⟨hq1, hq2⟩ | ⟨hq1, hq1o, hq2⟩
    · rw [hq2, hq1]
      exact alook_ains_self _ _ _
    · have hold2 := hv.hH q i hq2 hne 0 hqid2 hrdir
      have hs_nn : (splitPath q).2 ≠ (splitPath new).2 := by
        intro heq
        by_cases hnee : new = []
        · have hqv : validPath q := hv.hV q i hq2
          have := splitPath_snd_ne_empty q hqv hne
          rw [heq, hnee] at this
          exact this rfl
        · have hnewp : new = [(splitPath new).2] := (splitPath_fst_nil new hnn).resolve_left hnee
          exact hq1 (by rw [hqp, hnewp, heq])
      have hs_no : (splitPath q).2 ≠ (splitPath old).2 := by
        intro heq
        exact hq1o (by rw [hqp, holdp, heq])
      rw [alook_ains_ne _ _ _ _ (fun hh => hs_nn hh.symm),
        alook_adel_ne _ _ _ (fun hh => hs_no hh.symm)]
      exact hold2
  · intro q i hq
    rcases hlook2 q i hq with ⟨hq1, _⟩ | ⟨_, _, hq2⟩
    · rw [hq1]
      exact hvnew
    · exact hv.hV q i hq2

/-- `renameTail` (steps after the target handling) keeps `Inv1`.  The
hypotheses are what both call sites establish: both parents are the root,
the new name is no longer listed (either never was, or the replaced target
was just unhooked), and `old` still resolves (unless `old = new`, in which
case the operation aborts with the Python `KeyError`). -/
theorem inv1_renameTail (g : CanaryFS) (old new : Path) (now : Nat) (nid : Nat)
    (hv : Inv1 g) (hvnew : validPath new)
    (hon : (splitPath old).1 = []) (hnn : (splitPath new).1 = [])
    (hroot : alook g.files [] = some 0)
    (hrdir : (getN g.heap 0).is_dir = true)
    (hno : alook (getN g.heap 0).children (splitPath new).2 = none)
    (hDold : old ≠ new → alook g.files old = some nid) :
    Inv1 (renameTail g old new now nid 0 (splitPath old).2 0 (splitPath new).2).1 := by
  have hlen0 : 0 < g.heap.length := hv.hE [] 0 hroot
  have hnewf : alook g.files new = none ∨ new = [] := by
    by_cases hne : new = []
    · exact Or.inr hne
    · left
      rcases hnc : alook g.files new with _ | j
      · rfl
      · exfalso
        have := hv.hH new j hnc hne 0 (hnn ▸ hroot) hrdir
        rw [this] at hno
        exact absurd hno (by simp)
  unfold renameTail
  dsimp only
  split
  · exact hv
  rename_i hBsome
  obtain ⟨j2, hj2⟩ : ∃ j2, alook (getN g.heap 0).children (splitPath old).2 = some j2 := by
    rcases hcc : alook (getN g.heap 0).children (splitPath old).2 with _ | j2
    · rw [hcc] at hBsome
      exact absurd (by simp) hBsome
    · exact ⟨j2, rfl⟩
  have honn2 : (splitPath old).2 ≠ (splitPath new).2 := by
    intro heq
    rw [heq, hno] at hj2
    exact absurd hj2 (by simp)
  have holdnn : old ≠ [] := by
    intro h
    have hse : (splitPath old).2 = "" := by
      rw [h]
      rfl
    rw [hse, hv.hR 0 hroot] at hj2
    exact absurd hj2 (by simp)
  have holdne : old ≠ new := by
    intro h
    exact honn2 (by rw [h])
  have holdf : alook g.files old = some nid := hDold holdne
  split
  · rename_i hDnone
    exfalso
    rw [holdf] at hDnone
    exact absurd hDnone (by simp)
  rename_i hDsome2
  obtain ⟨r, t, hg⟩ : ∃ r t, g.heap = r :: t := by
    rcases hh : g.heap with _ | ⟨r, t⟩
    · rw [hh] at hlen0
      exact absurd hlen0 (by simp)
    · exact ⟨r, t, rfl⟩
  refine inv1_rename_move g old new nid _ hv hvnew hon hnn holdnn hroot hrdir holdf hnewf ?_ ?_ ?_ ?_
  · rw [hg]
    rfl
  · rw [hg]
    rw [hg] at hrdir
    exact hrdir
  · intro i h0
    rw [hg]
    cases i
    · exact absurd rfl h0
    · rfl
  · rw [hg]
    rfl

/-- The `KeyError` exit inside `rename`'s target handling: the target name
was unhooked from the root's child map but the path map was found not to
hold the target path.  The partially mutated state still satisfies `Inv1`. -/
theorem inv1_erase_child_only (fs : CanaryFS) (nm : String) (y : Node)
    (hv : Inv1 fs)
    (hroot : alook fs.files [] = some 0) (hrdir : (getN fs.heap 0).is_dir = true)
    (hydir : y.is_dir = true)
    (hych : y.children = adel (getN fs.heap 0).children nm)
    (hnm : alook fs.files [nm] = none)
    (hnme : nm ≠ "") :
    Inv1 { fs with heap := fs.heap.set 0 y } := by
  have hlen0 : 0 < fs.heap.length := hv.hE [] 0 hroot
  have g0 : getN (fs.heap.set 0 y) 0 = y := getN_set_self _ _ _ hlen0
  have gOther : ∀ i, i ≠ 0 → getN (fs.heap.set 0 y) i = getN fs.heap i :=
    fun i h1 => getN_set_ne _ _ _ _ (fun hh => h1 hh.symm)
  have hcontrib : ∀ i, usedContrib (fs.heap.set 0 y) i = usedContrib fs.heap i := by
    intro i
    by_cases h0 : i = 0
    · subst h0
      unfold usedContrib
      rw [g0, hydir, hrdir]
      simp
    · unfold usedContrib
      rw [gOther i h0]
  have hU2 : ∀ i, (getN (fs.heap.set 0 y) i).is_dir = true → i = 0 := by
    intro i hd
    by_cases h0 : i = 0
    · exact h0
    · rw [gOther i h0] at hd
      exact hv.hU i hd
  refine ⟨?_, hv.hB, hv.hC, hv.hInj, ?_, hU2, ?_, ?_, ?_, hv.hP0, ?_, hv.hV⟩
  · show fs.used = (usedSum fs.files (fs.heap.set 0 y) : Int)
    rw [usedSum_heap_congr_all _ _ _ hcontrib]
    exact hv.hA
  · intro q i hq
    show i < (fs.heap.set 0 y).length
    rw [List.length_set]
    exact hv.hE q i hq
  · intro i hne
    rw [gOther i hne]
    exact hv.hZ i hne
  · intro i
    by_cases h0 : i = 0
    · subst h0
      rw [g0, hych]
      exact keysNodup_adel _ _ (hv.hCN 0)
    · rw [gOther i h0]
      exact hv.hCN i
  · intro q hq
    rw [hroot] at hq
    simp only [Option.some.injEq] at hq
    rw [← hq, g0, hych]
    rw [alook_adel_ne _ _ _ hnme]
    exact hv.hR 0 hroot
  · intro q i hq hne qid hqid hd
    dsimp only at hq hqid hd ⊢
    have hq0 : qid = 0 := hU2 qid hd
    subst hq0
    rw [g0, hych]
    have hqfst : (splitPath q).1 = [] := hv.hP0 _ hqid
    have hold2 := hv.hH q i hq hne 0 hqid hrdir
    have hsne : (splitPath q).2 ≠ nm := by
      intro heq
      have hqp : q = [(splitPath q).2] := (splitPath_fst_nil q hqfst).resolve_left hne
      rw [hqp, heq] at hq
      rw [hq] at hnm
      exact absurd hnm (by simp)
    rw [alook_adel_ne _ _ _ (fun hh => hsne hh.symm)]
    exact hold2

theorem inv1_rename (fs : CanaryFS) (old new : Path) (now : Nat)
    (hvo : validPath old) (hvn : validPath new) (hv : Inv1 fs) :
    Inv1 (fs.rename old new now).1 := by
  unfold CanaryFS.rename
  split
  · exact hv
  rename_i nid hold
  split
  · exact hv
  rename_i opid oname hepo
  split
  · exact hv
  rename_i npid nname hepn
  obtain ⟨hopid0, hofst, honame, hroot, hrdir⟩ := ensureParent_ok fs hv old opid oname hepo
  obtain ⟨hnpid0, hnfst, hnname, hroot2, hrdir2⟩ := ensureParent_ok fs hv new npid nname hepn
  subst hopid0
  subst hnpid0
  have hlen0 : 0 < fs.heap.length := hv.hE [] 0 hroot
  try dsimp only
  split
  · rename_i tid htid
    try dsimp only
    split
    · exact hv
    rename_i htdir
    have hnewne : new ≠ [] := by
      intro h
      have hse : nname = "" := by
        rw [hnname, h]
        rfl
      rw [hse, hv.hR 0 hroot] at htid
      exact absurd htid (by simp)
    have hnewp : new = [nname] := by
      rw [hnname]
      exact (splitPath_fst_nil new hnfst).resolve_left hnewne
    split
    · rename_i hAnone
      have hAnone2 : alook fs.files new = none := by
        rcases hcc : alook fs.files new with _ | j
        · rfl
        · rw [hcc] at hAnone
          exact absurd hAnone (by simp)
      refine inv1_erase_child_only fs nname _ hv hroot hrdir ?_ ?_ ?_ ?_
      · exact hrdir
      · exact rfl
      · rw [← hnewp]
        exact hAnone2
      · intro h
        rw [h] at hnewp
        have := hvn "" (by rw [hnewp]; simp)
        exact this.1 rfl
    · rename_i hAsome
      obtain ⟨J, hJ⟩ : ∃ J, alook fs.files new = some J := by
        rcases hcc : alook fs.files new with _ | j
        · rw [hcc] at hAsome
          exact absurd rfl hAsome
        · exact ⟨j, rfl⟩
      have hJt : J = tid := by
        have h1 := hv.hH new J hJ hnewne 0 (hnfst ▸ hroot) hrdir
        have h2 : alook (getN fs.heap 0).children (splitPath new).2 = some tid := by
          rw [← hnname]
          exact htid
        exact Option.some_injective _ (h1.symm.trans h2)
      have htfile : (getN fs.heap tid).is_dir = false := by
        revert htdir
        cases (getN fs.heap tid).is_dir <;> simp
      rw [honame, hnname]
      refine inv1_renameTail _ old new now nid ?_ hvn hofst hnfst ?_ ?_ ?_ ?_
      · refine inv1_remove_child fs new J _ _ hv hJ hnewne hnfst hroot hrdir ?_ ?_ ?_
        · exact hrdir
        · exact rfl
        · rw [hJt]
          unfold usedContrib
          rw [htfile]
          simp
      · show alook (adel fs.files new) [] = some 0
        rw [alook_adel_ne fs.files new [] hnewne]
        exact hroot
      · show (getN (fs.heap.set 0 _) 0).is_dir = true
        rw [getN_set_self _ _ _ hlen0]
        exact hrdir
      · show alook (getN (fs.heap.set 0 _) 0).children (splitPath new).2 = none
        rw [getN_set_self _ _ _ hlen0]
        exact alook_adel_self _ _ (hv.hCN 0)
      · intro hne2
        show alook (adel fs.files new) old = some nid
        rw [alook_adel_ne fs.files new old (fun hh => hne2 hh.symm)]
        exact hold
  · rename_i hnone
    rw [honame, hnname]
    refine inv1_renameTail fs old new now nid hv hvn hofst hnfst hroot hrdir ?_ ?_
    · rw [← hnname]
      exact hnone
    · intro _
      exact hold

/-! ### Claim C1 -/

/-- The operations claim C1 ranges over (`create`, `write`, `truncate`,
`unlink`, `rmdir`, `rename`), with normalized path arguments. -/
def c1ok : OpCall → Prop
  | .create p _ _ _ => validPath p
  | .write p _ _ _ _ => validPath p
  | .truncate p _ _ _ => validPath p
  | .unlink p _ _ => validPath p
  | .rmdir p _ _ => validPath p
  | .rename old new _ _ _ => validPath old ∧ validPath new
  | _ => False

instance (c : OpCall) : Decidable (c1ok c) := by
  cases c <;> (unfold c1ok; infer_instance)

theorem inv1_runOp (fs : CanaryFS) (c : OpCall) (hok : c1ok c) (hv : Inv1 fs) :
    Inv1 (runOp fs c) := by
  cases c with
  | create p mode now resps =>
    unfold runOp
    dsimp only
    split
    · exact inv1_create _ p mode now hok
        (inv1_of_sameStore _ _ (checkAndPrompt_sameStore fs "create" p now resps) hv)
    · exact inv1_of_sameStore _ _ (checkAndPrompt_sameStore fs "create" p now resps) hv
  | mkdir p mode now resps => exact hok.elim
  | unlink p now resps =>
    unfold runOp
    dsimp only
    split
    · exact inv1_unlink _ p now
        (inv1_of_sameStore _ _ (checkAndPrompt_sameStore fs "unlink" p now resps) hv)
    · exact inv1_of_sameStore _ _ (checkAndPrompt_sameStore fs "unlink" p now resps) hv
  | rmdir p now resps =>
    unfold runOp
    dsimp only
    split
    · exact inv1_rmdir _ p now
        (inv1_of_sameStore _ _ (checkAndPrompt_sameStore fs "rmdir" p now resps) hv)
    · exact inv1_of_sameStore _ _ (checkAndPrompt_sameStore fs "rmdir" p now resps) hv
  | rename old new now r1 r2 =>
    unfold runOp
    dsimp only
    split
    · split
      · exact inv1_rename _ old new now hok.1 hok.2
          (inv1_of_sameStore _ _ (checkAndPrompt_sameStore _ "rename" new now r2)
            (inv1_of_sameStore _ _ (checkAndPrompt_sameStore fs "rename" old now r1) hv))
      · exact inv1_of_sameStore _ _ (checkAndPrompt_sameStore _ "rename" new now r2)
          (inv1_of_sameStore _ _ (checkAndPrompt_sameStore fs "rename" old now r1) hv)
    · exact inv1_of_sameStore _ _ (checkAndPrompt_sameStore fs "rename" old now r1) hv
  | read p size offset now resps => exact hok.elim
  | write p data offset now resps =>
    unfold runOp
    dsimp only
    split
    · exact inv1_write _ p data offset now
        (inv1_of_sameStore _ _ (checkAndPrompt_sameStore fs "write" p now resps) hv)
    · exact inv1_of_sameStore _ _ (checkAndPrompt_sameStore fs "write" p now resps) hv
  | truncate p length now resps =>
    unfold runOp
    dsimp only
    split
    · exact inv1_truncate _ p length now
        (inv1_of_sameStore _ _ (checkAndPrompt_sameStore fs "truncate" p now resps) hv)
    · exact inv1_of_sameStore _ _ (checkAndPrompt_sameStore fs "truncate" p now resps) hv
  | utimens p times now resps => exact hok.elim
  | chmod p mode now resps => exact hok.elim
  | chown p uid gid now resps => exact hok.elim

theorem inv1_runOps (fs : CanaryFS) (cs : List OpCall) (hok : ∀ c ∈ cs, c1ok c)
    (hv : Inv1 fs) : Inv1 (runOps fs cs) := by
  induction cs generalizing fs with
  | nil => exact hv
  | cons c rest ih =>
    exact ih (runOp fs c) (fun d hd => hok d (List.mem_cons.mpr (Or.inr hd)))
      (inv1_runOp fs c (hok c (List.mem_cons_self _ _)) hv)

theorem cap_create (fs : CanaryFS) (p : Path) (m now : Nat) :
    (fs.create p m now).1.capacity = fs.capacity := by
  unfold CanaryFS.create
  repeat' first
  | rfl
  | split
  | dsimp only

theorem cap_mkdir (fs : CanaryFS) (p : Path) (m now : Nat) :
    (fs.mkdir p m now).1.capacity = fs.capacity := by
  unfold CanaryFS.mkdir
  repeat' first
  | rfl
  | split
  | dsimp only

theorem cap_unlink (fs : CanaryFS) (p : Path) (now : Nat) :
    (fs.unlink p now).1.capacity = fs.capacity := by
  unfold CanaryFS.unlink
  repeat' first
  | rfl
  | split
  | dsimp only

theorem cap_rmdir (fs : CanaryFS) (p : Path) (now : Nat) :
    (fs.rmdir p now).1.capacity = fs.capacity := by
  unfold CanaryFS.rmdir
  repeat' first
  | rfl
  | split
  | dsimp only

theorem cap_renameTail (fs : CanaryFS) (old new : Path) (now nid opid : Nat)
    (oname : String) (npid : Nat) (nname : String) :
    (renameTail fs old new now nid opid oname npid nname).1.capacity = fs.capacity := by
  unfold renameTail
  repeat' first
  | rfl
  | split
  | dsimp only

theorem cap_rename (fs : CanaryFS) (old new : Path) (now : Nat) :
    (fs.rename old new now).1.capacity = fs.capacity := by
  unfold CanaryFS.rename
  repeat' first
  | rfl
  | apply cap_renameTail
  | split
  | dsimp only

theorem cap_read (fs : CanaryFS) (p : Path) (size offset now : Nat) :
    (fs.read p size offset now).1.capacity = fs.capacity := by
  unfold CanaryFS.read
  repeat' first
  | rfl
  | split
  | dsimp only

theorem cap_write (fs : CanaryFS) (p : Path) (data : List Nat) (offset now : Nat) :
    (fs.write p data offset now).1.capacity = fs.capacity := by
  unfold CanaryFS.write
  repeat' first
  | rfl
  | split
  | dsimp only

theorem cap_truncate (fs : CanaryFS) (p : Path) (length now : Nat) :
    (fs.truncate p length now).1.capacity = fs.capacity := by
  unfold CanaryFS.truncate
  repeat' first
  | rfl
  | split
  | dsimp only

theorem cap_utimens (fs : CanaryFS) (p : Path) (times : Option (Nat × Nat)) (now : Nat) :
    (fs.utimens p times now).1.capacity = fs.capacity := by
  unfold CanaryFS.utimens
  repeat' first
  | rfl
  | split
  | dsimp only

theorem cap_chmod (fs : CanaryFS) (p : Path) (m now : Nat) :
    (fs.chmod p m now).1.capacity = fs.capacity := by
  unfold CanaryFS.chmod
  repeat' first
  | rfl
  | split
  | dsimp only

theorem cap_chown (fs : CanaryFS) (p : Path) (uid gid : Int) (now : Nat) :
    (fs.chown p uid gid now).1.capacity = fs.capacity := by
  unfold CanaryFS.chown
  repeat' first
  | rfl
  | split
  | dsimp only

theorem cap_runOp (fs : CanaryFS) (c : OpCall) : (runOp fs c).capacity = fs.capacity := by
  have hck : ∀ (g : CanaryFS) (op : String) (q : Path) (now : Nat) (resps : List Resp),
      (checkAndPrompt g op q now resps).fs.capacity = g.capacity :=
    fun g op q now resps => (checkAndPrompt_sameStore g op q now resps).1
  cases c with
  | create p mode now resps =>
    unfold runOp
    dsimp only
    split
    · rw [cap_create, hck]
    · rw [hck]
  | mkdir p mode now resps =>
    unfold runOp
    dsimp only
    split
    · rw [cap_mkdir, hck]
    · rw [hck]
  | unlink p now resps =>
    unfold runOp
    dsimp only
    split
    · rw [cap_unlink, hck]
    · rw [hck]
  | rmdir p now resps =>
    unfold runOp
    dsimp only
    split
    · rw [cap_rmdir, hck]
    · rw [hck]
  | rename old new now r1 r2 =>
    unfold runOp
    dsimp only
    split
    · split
      · rw [cap_rename, hck, hck]
      · rw [hck, hck]
    · rw [hck]
  | read p size offset now resps =>
    unfold runOp
    dsimp only
    split
    · rw [cap_read, hck]
    · rw [hck]
  | write p data offset now resps =>
    unfold runOp
    dsimp only
    split
    · rw [cap_write, hck]
    · rw [hck]
  | truncate p length now resps =>
    unfold runOp
    dsimp only
    split
    · rw [cap_truncate, hck]
    · rw [hck]
  | utimens p times now resps =>
    unfold runOp
    dsimp only
    split
    · rw [cap_utimens, hck]
    · rw [hck]
  | chmod p mode now resps =>
    unfold runOp
    dsimp only
    split
    · rw [cap_chmod, hck]
    · rw [hck]
  | chown p uid gid now resps =>
    unfold runOp
    dsimp only
    split
    · rw [cap_chown, hck]
    · rw [hck]

theorem cap_runOps (fs : CanaryFS) (cs : List OpCall) :
    (runOps fs cs).capacity = fs.capacity := by
  induction cs generalizing fs with
  | nil => rfl
  | cons c rest ih => exact (ih (runOp fs c)).trans (cap_runOp fs c)

/-! ## The claims -/

/-- The concrete run exercising claim C1. -/
def opsC1 : List OpCall :=
  [OpCall.create ["f"] 420 0 [], OpCall.write ["f"] [1, 2, 3] 0 1 [],
   OpCall.truncate ["f"] 1 2 [], OpCall.unlink ["f"] 3 []]

/-- C1: over every sequence of `create`/`write`/`truncate`/`unlink`/`rmdir`/
`rename` calls on normalized paths from the initial store, `used` equals the
sum of the sizes of all file nodes, and `used ≤ capacity` holds at the end of
every operation (hence in particular at the end of the sequence shown here,
for every prefix of a longer run). -/
theorem C1_used_tracks_sizes (capacity : Nat) (ask : Bool) (sc : String)
    (cs : List OpCall) (hok : ∀ c ∈ cs, c1ok c) :
    (runOps (CanaryFS.init capacity ask sc) cs).used
      = (usedSum (runOps (CanaryFS.init capacity ask sc) cs).files
          (runOps (CanaryFS.init capacity ask sc) cs).heap : Int) ∧
    (runOps (CanaryFS.init capacity ask sc) cs).used ≤ (capacity : Int) := by
  have hv := inv1_runOps (CanaryFS.init capacity ask sc) cs hok
    (inv1_init capacity ask sc)
  refine ⟨hv.hA, ?_⟩
  have hB := hv.hB
  rw [cap_runOps] at hB
  exact hB

/-- C1, instantiated: the side condition and the conclusion at a concrete
capacity and call sequence. -/
theorem C1_used_tracks_sizes_witness :
    (∀ c ∈ opsC1, c1ok c) ∧
    ((runOps (CanaryFS.init 20 false "op") opsC1).used
      = (usedSum (runOps (CanaryFS.init 20 false "op") opsC1).files
          (runOps (CanaryFS.init 20 false "op") opsC1).heap : Int) ∧
     (runOps (CanaryFS.init 20 false "op") opsC1).used ≤ ((20 : Nat) : Int)) :=
  ⟨by decide, C1_used_tracks_sizes 20 false "op" opsC1 (by decide)⟩

/-- C2: `write` on an existing file node sets the size to
`max old_size (offset + len(data))`; the capacity check is applied to the
size increase only — `ENOSPC` exactly when the increase alone would push
`used` over `capacity`, so a write that does not grow the file never fails
for space — and on success the result is `len(data)` and `used` grows by
exactly the increase. -/
theorem C2_write_delta (fs : CanaryFS) (p : Path) (data : List Nat)
    (offset now nid : Nat) (hp : alook fs.files p = some nid)
    (hnd : (getN fs.heap nid).is_dir = false)
    (hlen : nid < fs.heap.length) :
    ((fs.write p data offset now).2 = .error .enospc ↔
      spaceShort fs (((max (getN fs.heap nid).size (offset + data.length) : Nat) : Int)
        - ((getN fs.heap nid).size : Int))) ∧
    (offset + data.length ≤ (getN fs.heap nid).size →
      (fs.write p data offset now).2 ≠ .error .enospc) ∧
    (¬spaceShort fs (((max (getN fs.heap nid).size (offset + data.length) : Nat) : Int)
        - ((getN fs.heap nid).size : Int)) →
      (fs.write p data offset now).2 = .ok data.length ∧
      (getN (fs.write p data offset now).1.heap nid).size
        = max (getN fs.heap nid).size (offset + data.length) ∧
      (fs.write p data offset now).1.used
        = fs.used + (((max (getN fs.heap nid).size (offset + data.length) : Nat) : Int)
            - ((getN fs.heap nid).size : Int))) := by
  unfold CanaryFS.write
  rw [hp]
  try dsimp only
  rw [if_neg (by simp [hnd])]
  try dsimp only
  refine ⟨?_, ?_, ?_⟩
  · constructor
    · intro h
      by_cases hsp : spaceShort fs
          (((max (getN fs.heap nid).size (offset + data.length) : Nat) : Int)
            - ((getN fs.heap nid).size : Int))
      · exact hsp
      · rw [if_neg hsp] at h
        exact absurd h (by simp)
    · intro hsp
      rw [if_pos hsp]
  · intro hle h
    have hmax : max (getN fs.heap nid).size (offset + data.length)
        = (getN fs.heap nid).size := by omega
    rw [hmax] at h
    have hz : ((getN fs.heap nid).size : Int) - ((getN fs.heap nid).size : Int)
        = 0 := by ring
    rw [hz] at h
    by_cases hsp : spaceShort fs 0
    · exact absurd hsp.1 (by omega)
    · rw [if_neg hsp] at h
      exact absurd h (by simp)
  · intro hsp
    rw [if_neg hsp]
    try dsimp only
    refine ⟨rfl, ?_, rfl⟩
    rw [getN_set_self fs.heap nid _ hlen]

/-- C2, instantiated: the spec's 20-byte example state, checked at the write
that fills the store to capacity. -/
theorem C2_write_delta_witness :
    (alook (runOps (CanaryFS.init 20 false "op")
        [OpCall.create ["f"] 420 0 [],
         OpCall.write ["f"] [0, 1, 2, 3, 4, 5, 6, 7, 8, 9] 0 1 []]).files ["f"]
      = some 1) ∧
    (((runOps (CanaryFS.init 20 false "op")
        [OpCall.create ["f"] 420 0 [],
         OpCall.write ["f"] [0, 1, 2, 3, 4, 5, 6, 7, 8, 9] 0 1 []]).write
        ["f"] [0, 1, 2, 3, 4, 5, 6, 7, 8, 9] 10 2).2 = .ok 10 ∧ True) :=
  ⟨by decide, by
    have h := C2_write_delta (runOps (CanaryFS.init 20 false "op")
        [OpCall.create ["f"] 420 0 [],
         OpCall.write ["f"] [0, 1, 2, 3, 4, 5, 6, 7, 8, 9] 0 1 []])
      ["f"] [0, 1, 2, 3, 4, 5, 6, 7, 8, 9] 10 2 1 (by decide) (by decide)
      (by decide)
    exact ⟨(h.2.2 (by decide)).1, trivial⟩⟩

/-- C3: a `write` that fails with `ENOSPC` is atomic — the returned state is
the pre-state itself, so the file's content and size and the store's `used`
counter are exactly what they were before the call. -/
theorem C3_enospc_atomic (fs : CanaryFS) (p : Path) (data : List Nat)
    (offset now : Nat)
    (h : (fs.write p data offset now).2 = .error .enospc) :
    (fs.write p data offset now).1 = fs := by
  unfold CanaryFS.write at h ⊢
  cases hp : alook fs.files p with
  | none => rfl
  | some nid =>
    rw [hp] at h
    dsimp only at h ⊢
    by_cases hdir : (getN fs.heap nid).is_dir = true
    · rw [if_pos hdir]
    · rw [if_neg hdir] at h ⊢
      by_cases hsp : spaceShort fs
          ((((getN fs.heap nid).size ⊔ (offset + data.length) : Nat) : Int)
            - ((getN fs.heap nid).size : Int))
      · rw [if_pos hsp]
      · rw [if_neg hsp] at h
        exact absurd h (by simp)

/-- C3, instantiated: a concrete over-capacity write fails with `ENOSPC` and
returns the pre-state unchanged. -/
theorem C3_enospc_atomic_witness :
    (((runOps (CanaryFS.init 5 false "op")
        [OpCall.create ["f"] 420 0 [], OpCall.write ["f"] [1, 2, 3] 0 1 []]).write
        ["f"] [9, 9, 9] 3 2).2 = .error .enospc) ∧
    (((runOps (CanaryFS.init 5 false "op")
        [OpCall.create ["f"] 420 0 [], OpCall.write ["f"] [1, 2, 3] 0 1 []]).write
        ["f"] [9, 9, 9] 3 2).1
      = runOps (CanaryFS.init 5 false "op")
        [OpCall.create ["f"] 420 0 [], OpCall.write ["f"] [1, 2, 3] 0 1 []]) :=
  ⟨by decide, C3_enospc_atomic _ ["f"] [9, 9, 9] 3 2 (by decide)⟩

/-- C10: `read`, `write` and `truncate` on a path that resolves to a
directory node all fail with `EISDIR` and return the store unchanged (the
store argument here is the state after the authorization check, so this is
the authorized call's behaviour). -/
theorem C10_dir_io_eisdir (fs : CanaryFS) (p : Path)
    (sz off : Nat) (data : List Nat) (len now : Nat) (nid : Nat)
    (hp : alook fs.files p = some nid)
    (hd : (getN fs.heap nid).is_dir = true) :
    fs.read p sz off now = (fs, .error .eisdir) ∧
    fs.write p data off now = (fs, .error .eisdir) ∧
    fs.truncate p len now = (fs, .error .eisdir) := by
  refine ⟨?_, ?_, ?_⟩
  · unfold CanaryFS.read
    rw [hp]
    dsimp only
    rw [if_pos hd]
  · unfold CanaryFS.write
    rw [hp]
    dsimp only
    rw [if_pos hd]
  · unfold CanaryFS.truncate
    rw [hp]
    dsimp only
    rw [if_pos hd]

/-- C10, instantiated at the root directory of a fresh store. -/
theorem C10_dir_io_eisdir_witness :
    (alook (CanaryFS.init 10 false "op").files [] = some 0) ∧
    ((getN (CanaryFS.init 10 false "op").heap 0).is_dir = true) ∧
    ((CanaryFS.init 10 false "op").read [] 4 0 1
        = (CanaryFS.init 10 false "op", .error .eisdir) ∧
     (CanaryFS.init 10 false "op").write [] [1] 0 1
        = (CanaryFS.init 10 false "op", .error .eisdir) ∧
     (CanaryFS.init 10 false "op").truncate [] 3 1
        = (CanaryFS.init 10 false "op", .error .eisdir)) :=
  ⟨by decide, by decide,
   C10_dir_io_eisdir (CanaryFS.init 10 false "op") [] 4 0 [1] 3 1 0
     (by decide) (by decide)⟩

/-- The asserted directory-link-count invariant of claim C6: every directory
node carries `nlink = 2 +` the number of its children that are directories. -/
def nlinkOK (fs : CanaryFS) : Prop :=
  ∀ i, i < fs.heap.length → (getN fs.heap i).is_dir = true →
    (getN fs.heap i).nlink
      = 2 + (((getN fs.heap i).children.filter
          (fun e => (getN fs.heap e.2).is_dir)).length : Int)

instance (fs : CanaryFS) : Decidable (nlinkOK fs) := by
  unfold nlinkOK
  infer_instance

/-- Three `mkdir` calls building `/a`, `/b` and `/a/d`. -/
def opsC6 : List OpCall :=
  [OpCall.mkdir ["a"] 493 0 [], OpCall.mkdir ["b"] 493 0 [],
   OpCall.mkdir ["a", "d"] 493 0 []]

/-- C6: the link-count invariant holds after the three `mkdir` calls, but
renaming the directory `/a/d` to `/b/d` breaks it — `rename` moves the child
between the two parents without moving the directory link it represents, so
`/a` keeps `nlink = 3` with no child directories and `/b` gets a child
directory while keeping `nlink = 2`. -/
theorem C6_nlink_rename_bug :
    nlinkOK (runOps (CanaryFS.init 100 false "op") opsC6) ∧
    ¬nlinkOK (runOps (CanaryFS.init 100 false "op")
        (opsC6 ++ [OpCall.rename ["a", "d"] ["b", "d"] 1 [] []])) := by
  constructor
  · decide
  · decide

/-- The one-file store exercising claim C9. -/
def fsC9 : CanaryFS :=
  runOps (CanaryFS.init 10 false "op") [OpCall.create ["f"] 420 0 []]

/-- C9 counterexample: `utimens` at tick 9 succeeds and sets the access and
modify times from its argument, but leaves the change time at its creation
value 0 — it does not update `ctime`, contrary to the claim. -/
theorem C9_counterexample :
    alook fsC9.files ["f"] = some 1 ∧
    (fsC9.utimens ["f"] (some (5, 7)) 9).2 = .ok () ∧
    (getN (fsC9.utimens ["f"] (some (5, 7)) 9).1.heap 1).atime = 5 ∧
    (getN (fsC9.utimens ["f"] (some (5, 7)) 9).1.heap 1).mtime = 7 ∧
    (getN fsC9.heap 1).ctime = 0 ∧
    (getN (fsC9.utimens ["f"] (some (5, 7)) 9).1.heap 1).ctime = 0 := by
  decide

/-- C9 (amended): on an existing node, `utimens`, `chmod` and `chown` each
return success, touch no other node, leave the path map and `used` (hence
kind, size and data of every node) unchanged, and rewrite only metadata:
`chmod` replaces the permission bits and sets `ctime := now`, `chown` sets
the owner ids and `ctime := now`, while `utimens` sets the access/modify
times from its argument (or to `now`) and — unlike the claim — leaves
`ctime` untouched. -/
theorem C9_metadata_frame (fs : CanaryFS) (p : Path) (nid : Nat)
    (times : Option (Nat × Nat)) (now mode : Nat) (uid gid : Int)
    (hp : alook fs.files p = some nid) (hlen : nid < fs.heap.length) :
    ((fs.utimens p times now).2 = .ok () ∧
     (fs.utimens p times now).1.files = fs.files ∧
     (fs.utimens p times now).1.used = fs.used ∧
     getN (fs.utimens p times now).1.heap nid
       = { getN fs.heap nid with
           atime := (times.getD (now, now)).1
           mtime := (times.getD (now, now)).2 } ∧
     (∀ j, j ≠ nid → getN (fs.utimens p times now).1.heap j = getN fs.heap j)) ∧
    ((fs.chmod p mode now).2 = .ok 0 ∧
     (fs.chmod p mode now).1.files = fs.files ∧
     (fs.chmod p mode now).1.used = fs.used ∧
     getN (fs.chmod p mode now).1.heap nid
       = { getN fs.heap nid with
           mode := (getN fs.heap nid).mode / 512 * 512 + mode % 512
           ctime := now } ∧
     (∀ j, j ≠ nid → getN (fs.chmod p mode now).1.heap j = getN fs.heap j)) ∧
    ((fs.chown p uid gid now).2 = .ok 0 ∧
     (fs.chown p uid gid now).1.files = fs.files ∧
     (fs.chown p uid gid now).1.used = fs.used ∧
     getN (fs.chown p uid gid now).1.heap nid
       = { getN fs.heap nid with
           uid := uid
           gid := gid
           ctime := now } ∧
     (∀ j, j ≠ nid → getN (fs.chown p uid gid now).1.heap j = getN fs.heap j)) := by
  refine ⟨?_, ?_, ?_⟩
  · unfold CanaryFS.utimens
    rw [hp]
    try dsimp only
    refine ⟨rfl, rfl, rfl, ?_, ?_⟩
    · rw [getN_set_self fs.heap nid _ hlen]
    · intro j hj
      exact getN_set_ne fs.heap nid j _ (fun hh => hj hh.symm)
  · unfold CanaryFS.chmod
    rw [hp]
    try dsimp only
    refine ⟨rfl, rfl, rfl, ?_, ?_⟩
    · rw [getN_set_self fs.heap nid _ hlen]
    · intro j hj
      exact getN_set_ne fs.heap nid j _ (fun hh => hj hh.symm)
  · unfold CanaryFS.chown
    rw [hp]
    try dsimp only
    refine ⟨rfl, rfl, rfl, ?_, ?_⟩
    · rw [getN_set_self fs.heap nid _ hlen]
    · intro j hj
      exact getN_set_ne fs.heap nid j _ (fun hh => hj hh.symm)

/-- C9 (amended), instantiated on the one-file store. -/
theorem C9_metadata_frame_witness :
    (alook fsC9.files ["f"] = some 1 ∧ 1 < fsC9.heap.length) ∧
    ((fsC9.chmod ["f"] 0 9).2 = .ok 0 ∧
     (fsC9.chmod ["f"] 0 9).1.used = fsC9.used ∧
     getN (fsC9.chmod ["f"] 0 9).1.heap 1
       = { getN fsC9.heap 1 with
           mode := (getN fsC9.heap 1).mode / 512 * 512 + 0 % 512
           ctime := 9 }) :=
  ⟨⟨by decide, by decide⟩, by
    have h := C9_metadata_frame fsC9 ["f"] 1 (some (5, 7)) 9 0 3 4
      (by decide) (by decide)
    exact ⟨h.2.1.1, h.2.1.2.2.1, h.2.1.2.2.2.1⟩⟩

/-! ### The global allow-all flag (claim C7) -/

theorem gaa_checkAndPrompt (fs : CanaryFS) (op : String) (p : Path) (now : Nat)
    (resps : List Resp) (h : fs.global_allow_all = true) :
    checkAndPrompt fs op p now resps = ⟨fs, true, false, [(op, p)]⟩ := by
  unfold checkAndPrompt
  rw [if_pos (Or.inr h)]

theorem gaa_create (fs : CanaryFS) (p : Path) (m now : Nat) :
    (fs.create p m now).1.global_allow_all = fs.global_allow_all := by
  unfold CanaryFS.create
  repeat' first
  | rfl
  | split
  | dsimp only

theorem gaa_mkdir (fs : CanaryFS) (p : Path) (m now : Nat) :
    (fs.mkdir p m now).1.global_allow_all = fs.global_allow_all := by
  unfold CanaryFS.mkdir
  repeat' first
  | rfl
  | split
  | dsimp only

theorem gaa_unlink (fs : CanaryFS) (p : Path) (now : Nat) :
    (fs.unlink p now).1.global_allow_all = fs.global_allow_all := by
  unfold CanaryFS.unlink
  repeat' first
  | rfl
  | split
  | dsimp only

theorem gaa_rmdir (fs : CanaryFS) (p : Path) (now : Nat) :
    (fs.rmdir p now).1.global_allow_all = fs.global_allow_all := by
  unfold CanaryFS.rmdir
  repeat' first
  | rfl
  | split
  | dsimp only

theorem gaa_renameTail (fs : CanaryFS) (old new : Path) (now nid opid : Nat)
    (oname : String) (npid : Nat) (nname : String) :
    (renameTail fs old new now nid opid oname npid nname).1.global_allow_all
      = fs.global_allow_all := by
  unfold renameTail
  repeat' first
  | rfl
  | split
  | dsimp only

theorem gaa_rename (fs : CanaryFS) (old new : Path) (now : Nat) :
    (fs.rename old new now).1.global_allow_all = fs.global_allow_all := by
  unfold CanaryFS.rename
  repeat' first
  | rfl
  | apply gaa_renameTail
  | split
  | dsimp only

theorem gaa_read (fs : CanaryFS) (p : Path) (size offset now : Nat) :
    (fs.read p size offset now).1.global_allow_all = fs.global_allow_all := by
  unfold CanaryFS.read
  repeat' first
  | rfl
  | split
  | dsimp only

theorem gaa_write (fs : CanaryFS) (p : Path) (data : List Nat) (offset now : Nat) :
    (fs.write p data offset now).1.global_allow_all = fs.global_allow_all := by
  unfold CanaryFS.write
  repeat' first
  | rfl
  | split
  | dsimp only

theorem gaa_truncate (fs : CanaryFS) (p : Path) (length now : Nat) :
    (fs.truncate p length now).1.global_allow_all = fs.global_allow_all := by
  unfold CanaryFS.truncate
  repeat' first
  | rfl
  | split
  | dsimp only

theorem gaa_utimens (fs : CanaryFS) (p : Path) (times : Option (Nat × Nat)) (now : Nat) :
    (fs.utimens p times now).1.global_allow_all = fs.global_allow_all := by
  unfold CanaryFS.utimens
  repeat' first
  | rfl
  | split
  | dsimp only

theorem gaa_chmod (fs : CanaryFS) (p : Path) (m now : Nat) :
    (fs.chmod p m now).1.global_allow_all = fs.global_allow_all := by
  unfold CanaryFS.chmod
  repeat' first
  | rfl
  | split
  | dsimp only

theorem gaa_chown (fs : CanaryFS) (p : Path) (uid gid : Int) (now : Nat) :
    (fs.chown p uid gid now).1.global_allow_all = fs.global_allow_all := by
  unfold CanaryFS.chown
  repeat' first
  | rfl
  | split
  | dsimp only

/-- Once the global flag is set, every full operation leaves it set. -/
theorem gaa_runOp (fs : CanaryFS) (c : OpCall) (h : fs.global_allow_all = true) :
    (runOp fs c).global_allow_all = true := by
  cases c with
  | create p m now resps =>
    unfold runOp
    dsimp only
    rw [gaa_checkAndPrompt fs "create" p now resps h]
    rw [if_pos rfl]
    rw [gaa_create]
    exact h
  | mkdir p m now resps =>
    unfold runOp
    dsimp only
    rw [gaa_checkAndPrompt fs "mkdir" p now resps h]
    rw [if_pos rfl]
    rw [gaa_mkdir]
    exact h
  | unlink p now resps =>
    unfold runOp
    dsimp only
    rw [gaa_checkAndPrompt fs "unlink" p now resps h]
    rw [if_pos rfl]
    rw [gaa_unlink]
    exact h
  | rmdir p now resps =>
    unfold runOp
    dsimp only
    rw [gaa_checkAndPrompt fs "rmdir" p now resps h]
    rw [if_pos rfl]
    rw [gaa_rmdir]
    exact h
  | rename old new now r1 r2 =>
    unfold runOp
    dsimp only
    rw [gaa_checkAndPrompt fs "rename" old now r1 h]
    rw [if_pos rfl]
    rw [gaa_checkAndPrompt fs "rename" new now r2 h]
    rw [if_pos rfl]
    rw [gaa_rename]
    exact h
  | read p size offset now resps =>
    unfold runOp
    dsimp only
    rw [gaa_checkAndPrompt fs "read" p now resps h]
    rw [if_pos rfl]
    rw [gaa_read]
    exact h
  | write p data offset now resps =>
    unfold runOp
    dsimp only
    rw [gaa_checkAndPrompt fs "write" p now resps h]
    rw [if_pos rfl]
    rw [gaa_write]
    exact h
  | truncate p length now resps =>
    unfold runOp
    dsimp only
    rw [gaa_checkAndPrompt fs "truncate" p now resps h]
    rw [if_pos rfl]
    rw [gaa_truncate]
    exact h
  | utimens p times now resps =>
    unfold runOp
    dsimp only
    rw [gaa_checkAndPrompt fs "utimens" p now resps h]
    rw [if_pos rfl]
    rw [gaa_utimens]
    exact h
  | chmod p m now resps =>
    unfold runOp
    dsimp only
    rw [gaa_checkAndPrompt fs "chmod" p now resps h]
    rw [if_pos rfl]
    rw [gaa_chmod]
    exact h
  | chown p uid gid now resps =>
    unfold runOp
    dsimp only
    rw [gaa_checkAndPrompt fs "chown" p now resps h]
    rw [if_pos rfl]
    rw [gaa_chown]
    exact h

/-- C7: the allow-all flag starts out false; once it is true, every
authorization check short-circuits to approval — no prompt, the state (in
particular the rule table) untouched — while the check is still logged with
the operation name and path; and no later operation of any kind clears the
flag. -/
theorem C7_allow_all (fs : CanaryFS) (op : String) (p : Path) (now : Nat)
    (resps : List Resp) (c : OpCall) (cap : Nat) (ask : Bool) (sc : String)
    (h : fs.global_allow_all = true) :
    (CanaryFS.init cap ask sc).global_allow_all = false ∧
    checkAndPrompt fs op p now resps = ⟨fs, true, false, [(op, p)]⟩ ∧
    (runOp fs c).global_allow_all = true :=
  ⟨rfl, gaa_checkAndPrompt fs op p now resps h, gaa_runOp fs c h⟩

/-- C7, instantiated at a state whose flag was set by the prompt answer `a`. -/
theorem C7_allow_all_witness :
    ((checkAndPrompt (CanaryFS.init 10 true "op") "write" ["f"] 0
        [['a']]).fs.global_allow_all = true) ∧
    ((CanaryFS.init 7 true "path").global_allow_all = false ∧
     checkAndPrompt (checkAndPrompt (CanaryFS.init 10 true "op") "write" ["f"] 0
          [['a']]).fs "unlink" ["g"] 3 [['n']]
       = ⟨(checkAndPrompt (CanaryFS.init 10 true "op") "write" ["f"] 0
            [['a']]).fs, true, false, [("unlink", ["g"])]⟩ ∧
     (runOp (checkAndPrompt (CanaryFS.init 10 true "op") "write" ["f"] 0
          [['a']]).fs (OpCall.create ["f"] 420 1 [])).global_allow_all = true) :=
  ⟨by decide,
   C7_allow_all _ "unlink" ["g"] 3 [['n']] (OpCall.create ["f"] 420 1 [])
     7 true "path" (by decide)⟩

/-! ### Buffer lemmas (claim C8) -/

/-- Reading back the exact region a slice assignment wrote returns the bytes
that were written, as long as the assignment starts inside the buffer. -/
theorem sliceAssign_roundtrip (xs ys : List Nat) (offset : Nat)
    (h : offset ≤ xs.length) :
    ((sliceAssign xs offset (offset + ys.length) ys).drop offset).take ys.length
      = ys := by
  unfold sliceAssign
  have h1 : min offset xs.length = offset := by omega
  rw [h1]
  have h2 : (xs.take offset).length = offset := by
    rw [List.length_take]
    omega
  rw [List.append_assoc]
  have hd := List.drop_left (xs.take offset)
    (ys ++ xs.drop (min (max (offset + ys.length) offset) xs.length))
  rw [h2] at hd
  rw [hd]
  exact List.take_left ys _

/-- One cell of `take` after `drop`: position `k` of the window starting at
`o` is position `o + k` of the buffer. -/
theorem take_drop_getD (l : List Nat) (o s k : Nat) (hk : k < s) :
    ((l.drop o).take s).getD k 0 = l.getD (o + k) 0 := by
  rw [List.getD_eq_getElem?_getD, List.getD_eq_getElem?_getD]
  rw [List.getElem?_take, if_pos hk, List.getElem?_drop]

/-- The one-file store exercising claim C8. -/
def fsC8 : CanaryFS :=
  runOps (CanaryFS.init 20 false "op") [OpCall.create ["f"] 420 0 []]

/-- C8: a successful `write(p, offset, data)` followed by
`read(p, len(data), offset)` returns exactly `data`; and `read` always
returns the intersection of the requested window with the stored buffer —
its length is `min size (len(buffer) - offset)` (zero past end-of-file,
never out of bounds) and cell `k` of the result is cell `offset + k` of the
buffer. -/
theorem C8_write_read_roundtrip (fs : CanaryFS) (p : Path) (data : List Nat)
    (offset now now2 sz off : Nat) (nid : Nat)
    (hp : alook fs.files p = some nid)
    (hnd : (getN fs.heap nid).is_dir = false)
    (hlen : nid < fs.heap.length)
    (hsp : ¬spaceShort fs
      ((((getN fs.heap nid).size ⊔ (offset + data.length) : Nat) : Int)
        - ((getN fs.heap nid).size : Int))) :
    ((fs.write p data offset now).1.read p data.length offset now2).2
      = .ok data ∧
    (∃ out, (fs.read p sz off now2).2 = .ok out ∧
      out.length = min sz ((getN fs.heap nid).data.length - off) ∧
      ∀ k, k < out.length →
        out.getD k 0 = (getN fs.heap nid).data.getD (off + k) 0) := by
  constructor
  · unfold CanaryFS.write
    rw [hp]
    try dsimp only
    rw [if_neg (by simp [hnd])]
    try dsimp only
    rw [if_neg hsp]
    try dsimp only
    unfold CanaryFS.read
    try dsimp only
    rw [hp]
    try dsimp only
    rw [getN_set_self fs.heap nid _ hlen]
    try dsimp only
    rw [if_neg (by simp [hnd])]
    try dsimp only
    rw [sliceAssign_roundtrip]
    have hm : offset + data.length
        ≤ (getN fs.heap nid).size ⊔ (offset + data.length) :=
      Nat.le_max_right _ _
    split
    · rename_i hpad
      rw [List.length_append, List.length_replicate]
      omega
    · rename_i hnopad
      omega
  · unfold CanaryFS.read
    rw [hp]
    try dsimp only
    rw [if_neg (by simp [hnd])]
    try dsimp only
    refine ⟨_, rfl, ?_, ?_⟩
    · rw [List.length_take, List.length_drop]
    · intro k hk
      rw [List.length_take, List.length_drop] at hk
      exact take_drop_getD _ off sz k (by omega)

/-- C8, instantiated: write two bytes at offset 0 of an empty file and read
them back; read the file with an oversized request. -/
theorem C8_write_read_roundtrip_witness :
    (alook fsC8.files ["f"] = some 1 ∧ (getN fsC8.heap 1).is_dir = false) ∧
    (((fsC8.write ["f"] [7, 8] 0 1).1.read ["f"] 2 0 2).2 = .ok [7, 8] ∧
     (∃ out, (fsC8.read ["f"] 5 0 2).2 = .ok out ∧
       out.length = min 5 ((getN fsC8.heap 1).data.length - 0) ∧
       ∀ k, k < out.length →
         out.getD k 0 = (getN fsC8.heap 1).data.getD (0 + k) 0)) :=
  ⟨⟨by decide, by decide⟩,
   C8_write_read_roundtrip fsC8 ["f"] [7, 8] 0 1 2 5 0 1
     (by decide) (by decide) (by decide) (by decide)⟩

/-! ### Rename onto an existing path (claim C4) -/

/-- The one-file store exercising the C4 counterexample. -/
def fsC4 : CanaryFS :=
  runOps (CanaryFS.init 10 false "op") [OpCall.create ["f"] 420 0 []]

/-- C4 counterexample: renaming `/f` onto itself — `old` exists and `new`
exists and is a file — does not leave `new` resolving to the source's
content: the call deletes the lone path-map entry and then dies with an
uncaught `KeyError`, so `/f` is gone. -/
theorem C4_counterexample :
    alook fsC4.files ["f"] = some 1 ∧
    (getN fsC4.heap 1).is_dir = false ∧
    (fsC4.rename ["f"] ["f"] 1).2 = .error .keyErr ∧
    alook (fsC4.rename ["f"] ["f"] 1).1.files ["f"] = none := by
  decide

/-- C4 (amended): for `rename(old, new)` with `old ≠ new`, both paths
resolving, and the target listed in its parent directory: a directory
target fails with `EISDIR` and changes nothing, while a file target is
replaced — the call succeeds, `new` afterwards resolves to the source's
node (whose content is untouched), `old` is gone, and `used` drops by
exactly the target's former size.  The extra hypotheses of the second part
are the consistency facts that hold in every reachable state: the path map
has distinct keys, the moved node is distinct from the two parent nodes,
and the source is listed under its own parent. -/
theorem C4_rename_onto_existing (fs : CanaryFS) (old new : Path) (now : Nat)
    (nid opid npid tid : Nat) (oname nname : String)
    (hold : alook fs.files old = some nid)
    (hpo : ensureParent fs old = .ok (opid, oname))
    (hpn : ensureParent fs new = .ok (npid, nname))
    (htc : alook (getN fs.heap npid).children nname = some tid) :
    ((getN fs.heap tid).is_dir = true →
      fs.rename old new now = (fs, .error .eisdir)) ∧
    ((getN fs.heap tid).is_dir = false →
      alook fs.files new = some tid →
      old ≠ new →
      keysNodup fs.files →
      nid ≠ opid →
      nid ≠ npid →
      alook (getN (fs.heap.set npid
          { getN fs.heap npid with
            children := adel (getN fs.heap npid).children nname }) opid).children
          oname ≠ none →
      ((fs.rename old new now).2 = .ok () ∧
       alook (fs.rename old new now).1.files new = some nid ∧
       alook (fs.rename old new now).1.files old = none ∧
       getN (fs.rename old new now).1.heap nid = getN fs.heap nid ∧
       (fs.rename old new now).1.used
         = fs.used - ((getN fs.heap tid).size : Int))) := by
  unfold CanaryFS.rename
  rw [hold]
  try dsimp only
  rw [hpo]
  try dsimp only
  rw [hpn]
  try dsimp only
  rw [htc]
  try dsimp only
  constructor
  · intro hdir
    rw [if_pos hdir]
  · intro hdir hfn hon hC hno hnn hoc
    rw [if_neg (by simp [hdir])]
    try dsimp only
    rw [if_neg (by rw [hfn]; simp)]
    try dsimp only
    unfold renameTail
    try dsimp only
    rw [if_neg (fun hh => hoc (Option.isNone_iff_eq_none.mp hh))]
    try dsimp only
    have hAold : alook (adel fs.files new) old = some nid := by
      rw [alook_adel_ne fs.files new old (fun hh => hon hh.symm)]
      exact hold
    rw [if_neg (by rw [hAold]; simp)]
    try dsimp only
    refine ⟨rfl, ?_, ?_, ?_, rfl⟩
    · exact alook_ains_self _ _ _
    · rw [alook_ains_ne _ new old _ (fun hh => hon hh.symm)]
      exact alook_adel_self _ _ (keysNodup_adel _ _ hC)
    · rw [getN_set_ne _ _ _ _ (Ne.symm hnn), getN_set_ne _ _ _ _ (Ne.symm hno),
        getN_set_ne _ _ _ _ (Ne.symm hnn), getN_set_ne _ _ _ _ (Ne.symm hno),
        getN_set_ne _ _ _ _ (Ne.symm hnn)]

/-- The two-file store exercising the amended C4: `/a` empty, `/b` holding
two bytes. -/
def fsC4b : CanaryFS :=
  runOps (CanaryFS.init 10 false "op")
    [OpCall.create ["a"] 420 0 [], OpCall.create ["b"] 420 0 [],
     OpCall.write ["b"] [1, 2] 0 0 []]

/-- C4 (amended), instantiated: `rename /a /b` replaces the two-byte target,
leaves `/b` resolving to the untouched source node, removes `/a`, and drops
`used` by the target's former size. -/
theorem C4_rename_onto_existing_witness :
    ((getN fsC4b.heap 2).is_dir = false) ∧
    ((fsC4b.rename ["a"] ["b"] 1).2 = .ok () ∧
     alook (fsC4b.rename ["a"] ["b"] 1).1.files ["b"] = some 1 ∧
     alook (fsC4b.rename ["a"] ["b"] 1).1.files ["a"] = none ∧
     getN (fsC4b.rename ["a"] ["b"] 1).1.heap 1 = getN fsC4b.heap 1 ∧
     (fsC4b.rename ["a"] ["b"] 1).1.used
       = fsC4b.used - ((getN fsC4b.heap 2).size : Int)) :=
  ⟨by decide, by
    have h := C4_rename_onto_existing fsC4b ["a"] ["b"] 1 1 0 0 2 "a" "b"
      (by decide) (by decide) (by decide) (by decide)
    exact h.2 (by decide) (by decide) (by decide) (by decide) (by decide)
      (by decide) (by decide)⟩

/-! ### Count rules (claim C5) -/

/-- Iterated authorization checks for one key, tracking the state only. -/
def checkIter (op : String) (p : Path) (now : Nat) (resps : List Resp) :
    Nat → CanaryFS → CanaryFS
  | 0, g => g
  | n + 1, g => checkIter op p now resps n (checkAndPrompt g op p now resps).fs

/-- One authorization check against a live count rule: approved, no prompt,
and the counter decremented in place. -/
theorem checkAndPrompt_count_step (g : CanaryFS) (op : String) (p : Path)
    (now : Nat) (resps : List Resp) (k : Int)
    (hask : g.ask = true) (hga : g.global_allow_all = false)
    (hr : alook g.allow_rules (ruleKey g op p) = some (Rule.mk none (some k)))
    (hk : 0 < k) :
    checkAndPrompt g op p now resps
      = ⟨{ g with allow_rules := ains g.allow_rules (ruleKey g op p) (Rule.mk none (some (k - 1))) }, true, false, [(op, p)]⟩ := by
  unfold checkAndPrompt
  rw [if_neg (by simp [hask, hga])]
  rw [hr]
  try dsimp only
  rw [if_pos (by simp [Rule.allowed, hk])]
  have hc : (Rule.mk none (some k)).consume = Rule.mk none (some (k - 1)) := by
    unfold Rule.consume
    try dsimp only
    rw [if_pos hk]
  rw [hc]

/-- Running `j ≤ k` checks against a count rule with `k` uses left keeps the
session flags and scope, and leaves the rule with `k - j` uses. -/
theorem checkIter_count (op : String) (p : Path) (now : Nat)
    (resps : List Resp) :
    ∀ (j : Nat) (g : CanaryFS), ∀ (k : Int), g.ask = true →
    g.global_allow_all = false →
    alook g.allow_rules (ruleKey g op p) = some (Rule.mk none (some k)) →
    (j : Int) ≤ k →
    (checkIter op p now resps j g).ask = true ∧
    (checkIter op p now resps j g).global_allow_all = false ∧
    (checkIter op p now resps j g).ask_scope = g.ask_scope ∧
    alook (checkIter op p now resps j g).allow_rules
        (ruleKey (checkIter op p now resps j g) op p)
      = some (Rule.mk none (some (k - (j : Int))))
  | 0, g, k, hask, hga, hr, hj => by
    refine ⟨hask, hga, rfl, ?_⟩
    simpa using hr
  | j + 1, g, k, hask, hga, hr, hj => by
    have hk : 0 < k := by
      have hj1 : ((j + 1 : Nat) : Int) = (j : Int) + 1 := by push_cast; ring
      rw [hj1] at hj
      omega
    have hstep := checkAndPrompt_count_step g op p now resps k hask hga hr hk
    unfold checkIter
    rw [hstep]
    try dsimp only
    have ih := checkIter_count op p now resps j
      { g with allow_rules := ains g.allow_rules (ruleKey g op p) (Rule.mk none (some (k - 1))) } (k - 1) hask hga
      (alook_ains_self _ _ _)
      (by
        have hj1 : ((j + 1 : Nat) : Int) = (j : Int) + 1 := by push_cast; ring
        rw [hj1] at hj
        omega)
    obtain ⟨i1, i2, i3, i4⟩ := ih
    refine ⟨i1, i2, i3, ?_⟩
    rw [i4]
    have hsub : k - 1 - (j : Int) = k - ((j + 1 : Nat) : Int) := by
      push_cast
      ring
    rw [hsub]

/-- C5: with prompting on and allow-all unset, answering the prompt for an
unruled key with the digit string for `N > 0` approves the prompted
invocation and stores a count rule with `remaining = N` without consuming
it; that rule then authorizes exactly `N` subsequent checks of the same key
without prompting, and the check after those prompts again (and, with no
console input left, is denied). -/
theorem C5_count_rule (fs : CanaryFS) (op : String) (p : Path) (now : Nat)
    (s : Resp) (N : Nat) (resps : List Resp)
    (hask : fs.ask = true) (hga : fs.global_allow_all = false)
    (hnone : alook fs.allow_rules (ruleKey fs op p) = none)
    (hs1 : ¬(pyStrip s = [] ∨ (pyStrip s).map pyLower = ['y']))
    (hs2 : ¬(pyStrip s).map pyLower = ['a'])
    (hs3 : ¬(pyStrip s).map pyLower = ['n'])
    (hs4 : ¬((pyStrip s).getLast? = some 's'
        ∧ pyIsDigits (pyStrip s).dropLast = true))
    (hs5 : pyIsDigits (pyStrip s) = true)
    (hN : digitsToNat (pyStrip s) = N) (hNpos : 0 < N) :
    (checkAndPrompt fs op p now [s]).allowed = true ∧
    (checkAndPrompt fs op p now [s]).prompted = true ∧
    alook (checkAndPrompt fs op p now [s]).fs.allow_rules
        (ruleKey (checkAndPrompt fs op p now [s]).fs op p)
      = some (Rule.mk none (some (N : Int))) ∧
    (∀ j, j < N →
      (checkAndPrompt
          (checkIter op p now resps j (checkAndPrompt fs op p now [s]).fs)
          op p now resps).allowed = true ∧
      (checkAndPrompt
          (checkIter op p now resps j (checkAndPrompt fs op p now [s]).fs)
          op p now resps).prompted = false) ∧
    ((checkAndPrompt
        (checkIter op p now resps N (checkAndPrompt fs op p now [s]).fs)
        op p now []).prompted = true ∧
     (checkAndPrompt
        (checkIter op p now resps N (checkAndPrompt fs op p now [s]).fs)
        op p now []).allowed = false) := by
  have hcp : checkAndPrompt fs op p now [s]
      = ⟨{ fs with allow_rules := ains fs.allow_rules (ruleKey fs op p) (Rule.mk none (some (N : Int))) }, true, true, [(op, p)]⟩ := by
    unfold checkAndPrompt
    rw [if_neg (by simp [hask, hga])]
    rw [hnone]
    try dsimp only
    unfold promptLoop
    rw [if_neg hs1, if_neg hs2, if_neg hs3, if_neg hs4, if_pos hs5]
    try dsimp only
    rw [hN]
  refine ⟨by rw [hcp], by rw [hcp], ?_, ?_, ?_⟩
  · rw [hcp]
    exact alook_ains_self _ _ _
  · intro j hj
    rw [hcp]
    try dsimp only
    have hit := checkIter_count op p now resps j
      { fs with allow_rules := ains fs.allow_rules (ruleKey fs op p) (Rule.mk none (some (N : Int))) } (N : Int) hask hga
      (alook_ains_self _ _ _) (by exact_mod_cast hj.le)
    obtain ⟨i1, i2, i3, i4⟩ := hit
    have hpos : (0 : Int) < (N : Int) - (j : Int) := by
      have : (j : Int) < (N : Int) := by exact_mod_cast hj
      omega
    rw [checkAndPrompt_count_step _ op p now resps _ i1 i2 i4 hpos]
    exact ⟨rfl, rfl⟩
  · rw [hcp]
    try dsimp only
    have hit := checkIter_count op p now resps N
      { fs with allow_rules := ains fs.allow_rules (ruleKey fs op p) (Rule.mk none (some (N : Int))) } (N : Int) hask hga
      (alook_ains_self _ _ _) (le_refl _)
    obtain ⟨i1, i2, i3, i4⟩ := hit
    have h0 : (N : Int) - (N : Int) = 0 := by ring
    rw [h0] at i4
    unfold checkAndPrompt
    rw [if_neg (by simp [i1, i2])]
    rw [i4]
    try dsimp only
    rw [if_neg (by simp [Rule.allowed])]
    exact ⟨rfl, rfl⟩

/-- C5, instantiated: the response `3` to a prompted `write` stores a
three-use rule that silently authorizes three more checks, and the fourth
check prompts again and is denied on empty input. -/
theorem C5_count_rule_witness :
    ((CanaryFS.init 10 true "op").ask = true ∧
     alook (CanaryFS.init 10 true "op").allow_rules
       (ruleKey (CanaryFS.init 10 true "op") "write" ["f"]) = none ∧
     pyIsDigits (pyStrip ['3']) = true ∧ digitsToNat (pyStrip ['3']) = 3) ∧
    ((checkAndPrompt (CanaryFS.init 10 true "op") "write" ["f"] 0
        [['3']]).allowed = true ∧
     (checkAndPrompt (CanaryFS.init 10 true "op") "write" ["f"] 0
        [['3']]).prompted = true ∧
     alook (checkAndPrompt (CanaryFS.init 10 true "op") "write" ["f"] 0
          [['3']]).fs.allow_rules
        (ruleKey (checkAndPrompt (CanaryFS.init 10 true "op") "write" ["f"] 0
          [['3']]).fs "write" ["f"])
       = some (Rule.mk none (some ((3 : Nat) : Int))) ∧
     (∀ j, j < 3 →
       (checkAndPrompt
           (checkIter "write" ["f"] 0 [] j
             (checkAndPrompt (CanaryFS.init 10 true "op") "write" ["f"] 0
               [['3']]).fs)
           "write" ["f"] 0 []).allowed = true ∧
       (checkAndPrompt
           (checkIter "write" ["f"] 0 [] j
             (checkAndPrompt (CanaryFS.init 10 true "op") "write" ["f"] 0
               [['3']]).fs)
           "write" ["f"] 0 []).prompted = false) ∧
     ((checkAndPrompt
         (checkIter "write" ["f"] 0 [] 3
           (checkAndPrompt (CanaryFS.init 10 true "op") "write" ["f"] 0
             [['3']]).fs)
         "write" ["f"] 0 []).prompted = true ∧
      (checkAndPrompt
         (checkIter "write" ["f"] 0 [] 3
           (checkAndPrompt (CanaryFS.init 10 true "op") "write" ["f"] 0
             [['3']]).fs)
         "write" ["f"] 0 []).allowed = false)) :=
  ⟨⟨by decide, by decide, by decide, by decide⟩,
   C5_count_rule (CanaryFS.init 10 true "op") "write" ["f"] 0 ['3'] 3 []
     (by decide) (by decide) (by decide) (by decide) (by decide) (by decide)
     (by decide) (by decide) (by decide) (by decide)⟩

end CanarySpec
